import Mathlib

/-!
Verification development for the buffered, channel-aware token stream
(`CommonTokenStream`) of the antlr4-go runtime.  The Go source is embedded
shallowly: tokens are records, the lazy token source is a finite list of
tokens followed by an end-of-stream token repeated forever (per the token
source interface contract), machine integers are `Int`, and every operation
that can panic in Go is modelled in the `Except String` monad, where
`.error` marks the panic.  Loops are written with explicit fuel; the fuel
bounds are proved sufficient for well-formed sources.
-/

/-- The reserved end-of-stream token type (`TokenEOF` in the runtime). -/
def TokenEOF : Int := -1

/-- The distinguished default channel (`LexerDefaultTokenChannel`). -/
def LexerDefaultTokenChannel : Int := 0

/-- The attributes of a token that the stream reads or writes. -/
structure Tok where
  typ : Int
  channel : Int
  text : String
  tokenIndex : Int
deriving DecidableEq, Repr

/-- Default token used as the `getD` fallback; never observed in-bounds. -/
def dTok : Tok := ⟨0, 0, "", -1⟩

/-- Modelled from the spec: the external `TokenSource` collaborator.  Its
code is not part of this repository; the spec says it "produces the next
token on request; exhausts by repeatedly emitting the same terminal
end-marker token", so it is a finite list of tokens followed by the
end-of-stream token forever. -/
structure TokenSource where
  toks : List Tok
  eofTok : Tok
deriving DecidableEq, Repr

/-- The `p`-th token produced by the source. -/
def TokenSource.nextToken (s : TokenSource) (p : Nat) : Tok :=
  if p < s.toks.length then s.toks.getD p dTok else s.eofTok

/-- State of a `CommonTokenStream`.  The Go struct fields, with the source
position implicit: every pulled token is appended, so the number of tokens
pulled so far always equals `tokens.length`. -/
structure CTS where
  tokenSource : TokenSource
  tokens : List Tok
  index : Int
  fetchedEOF : Bool
  channel : Int
deriving DecidableEq, Repr

/-- `NewCommonTokenStream` from the source. -/
def NewCommonTokenStream (src : TokenSource) (channel : Int) : CTS :=
  ⟨src, [], -1, false, channel⟩

/-- The buffered token at position `m` (total version, used in statements). -/
def tokAt (c : CTS) (m : Nat) : Tok := c.tokens.getD m dTok

/-- Error message for a Go index-out-of-range panic. -/
def errRange : String := "index out of range"

/-- Error message for the `cannot consume EOF` panic in `Consume`. -/
def errConsume : String := "cannot consume EOF"

/-- Error message for the out-of-bounds panic of the hidden-token queries. -/
def errHidden : String := "tokenIndex out of range"

/-- Error message for a nil-token dereference (`LA` on a nil `LT`). -/
def errNil : String := "nil token"

/-- Error message for fuel exhaustion.  Under a well-formed source the fuel
bounds are proved sufficient, so this only models divergence of the Go code
on a source that never emits the end-of-stream token. -/
def errFuel : String := "loop does not terminate"

/-- Indexing `tokens[i]` with a Go `int`: a panic outside `[0, length)`. -/
def getTok (ts : List Tok) (i : Int) : Except String Tok :=
  if 0 ≤ i ∧ i < (ts.length : Int) then .ok (ts.getD i.toNat dTok) else .error errRange

/-- The loop body of `fetch`: pull up to `n` tokens, assign each its append
position as token index, append, and stop (setting `fetchedEOF`) on the
first token of type `TokenEOF`.  Returns the count actually appended. -/
def fetchLoop : Nat → CTS → Nat × CTS
  | 0, c => (0, c)
  | n + 1, c =>
    let t0 := c.tokenSource.nextToken c.tokens.length
    let t : Tok := { t0 with tokenIndex := (c.tokens.length : Int) }
    let c' : CTS := { c with tokens := c.tokens ++ [t] }
    if t.typ = TokenEOF then (1, { c' with fetchedEOF := true })
    else
      let r := fetchLoop n c'
      (r.1 + 1, r.2)

/-- `fetch(n)` from the Go source: a no-op returning 0 once `fetchedEOF`. -/
def CTS.fetch (c : CTS) (n : Nat) : Nat × CTS :=
  if c.fetchedEOF then (0, c) else fetchLoop n c

/-- `Sync(i)` from the Go source: ensure the buffer holds index `i`,
returning whether it now does (`fetched >= n`). -/
def CTS.Sync (c : CTS) (i : Int) : Bool × CTS :=
  let n : Int := i - (c.tokens.length : Int) + 1
  if 0 < n then
    let r := c.fetch n.toNat
    (decide (n.toNat ≤ r.1), r.2)
  else (true, c)

/-- The scanning loop of `NextTokenOnChannel`: starting at `i`, advance
while the token's channel differs from the stream's own channel, syncing
one position at a time, returning -1 upon an (off-channel) end-of-stream
token.  Buffer accesses follow the Go code and may panic. -/
def ntocLoop : Nat → CTS → Int → Except String (Int × CTS)
  | 0, _, _ => .error errFuel
  | fuel + 1, c, i => do
    let t ← getTok c.tokens i
    if t.channel = c.channel then .ok (i, c)
    else if t.typ = TokenEOF then .ok (-1, c)
    else ntocLoop fuel ((c.Sync (i + 1)).2) (i + 1)

/-- `NextTokenOnChannel(i, channel)` from the Go source.  Note: the Go code
ignores the `channel` parameter and scans for the stream's own channel
field; the parameter is kept for signature fidelity. -/
def CTS.NextTokenOnChannel (c : CTS) (i _channel : Int) : Except String (Int × CTS) :=
  let c1 := (c.Sync i).2
  if (c1.tokens.length : Int) ≤ i then .ok (-1, c1)
  else ntocLoop (c1.tokenSource.toks.length + c1.tokens.length + 2) c1 i

/-- `adjustSeekIndex(i)` = `NextTokenOnChannel(i, channel)`. -/
def CTS.adjustSeekIndex (c : CTS) (i : Int) : Except String (Int × CTS) :=
  c.NextTokenOnChannel i c.channel

/-- The backward scan of `previousTokenOnChannel`: decrement while `i ≥ 0`
and the token's channel differs from the requested one (this one does use
its channel argument).  Purely reads the buffer; fuel `i.toNat + 1` is
exact. -/
def prevLoop : Nat → CTS → Int → Int → Except String Int
  | 0, _, i, _ => .ok i
  | fuel + 1, c, i, ch =>
    if i < 0 then .ok i
    else do
      let t ← getTok c.tokens i
      if t.channel ≠ ch then prevLoop fuel c (i - 1) ch else .ok i

/-- `previousTokenOnChannel(i, channel)` from the Go source. -/
def CTS.previousTokenOnChannel (c : CTS) (i channel : Int) : Except String Int :=
  prevLoop (i.toNat + 1) c i channel

/-- `setup()`: sync index 0, then snap the cursor to the first on-channel
token (or -1). -/
def CTS.setup (c : CTS) : Except String CTS := do
  let r := c.Sync 0
  let p ← r.2.adjustSeekIndex 0
  .ok { p.2 with index := p.1 }

/-- `lazyInit()`: run `setup` when the cursor is still -1. -/
def CTS.lazyInit (c : CTS) : Except String CTS :=
  if c.index = -1 then c.setup else .ok c

/-- `Seek(index)` from the Go source. -/
def CTS.Seek (c : CTS) (i : Int) : Except String CTS := do
  let c1 ← c.lazyInit
  let p ← c1.adjustSeekIndex i
  .ok { p.2 with index := p.1 }

/-- `Index()` accessor. -/
def CTS.Index (c : CTS) : Int := c.index

/-- `Size()` accessor. -/
def CTS.Size (c : CTS) : Int := c.tokens.length

/-- `Get(index)`: raw buffer access after lazy initialization. -/
def CTS.Get (c : CTS) (i : Int) : Except String (Tok × CTS) := do
  let c1 ← c.lazyInit
  let t ← getTok c1.tokens i
  .ok (t, c1)

/-- The loop of `LB(k)`: step backwards through `previousTokenOnChannel`
`k` times. -/
def lbLoop : Nat → CTS → Int → Except String Int
  | 0, _, i => .ok i
  | fuel + 1, c, i => do
    let j ← c.previousTokenOnChannel (i - 1) c.channel
    lbLoop fuel c j

/-- `LB(k)` from the Go source: nil when `k = 0` or `index - k < 0`. -/
def CTS.LB (c : CTS) (k : Int) : Except String (Option Tok) :=
  if k = 0 ∨ c.index - k < 0 then .ok none
  else do
    let i ← lbLoop k.toNat c c.index
    if i < 0 then .ok none
    else do
      let t ← getTok c.tokens i
      .ok (some t)

/-- The loop of `LT(k)` for `k > 0`: `k - 1` steps, each moving to the next
on-channel index when `Sync` succeeds and staying put otherwise. -/
def ltLoop : Nat → CTS → Int → Except String (Int × CTS)
  | 0, c, i => .ok (i, c)
  | fuel + 1, c, i =>
    let r := c.Sync (i + 1)
    if r.1 then do
      let p ← r.2.NextTokenOnChannel (i + 1) r.2.channel
      ltLoop fuel p.2 p.1
    else ltLoop fuel r.2 i

/-- `LT(k)` from the Go source. -/
def CTS.LT (c : CTS) (k : Int) : Except String (Option Tok × CTS) := do
  let c1 ← c.lazyInit
  if k = 0 then .ok (none, c1)
  else if k < 0 then do
    let t ← c1.LB (-k)
    .ok (t, c1)
  else do
    let p ← ltLoop (k.toNat - 1) c1 c1.index
    let t ← getTok p.2.tokens p.1
    .ok (some t, p.2)

/-- `LA(i)` = the token type of `LT(i)`; dereferencing a nil token is a
panic. -/
def CTS.LA (c : CTS) (i : Int) : Except String (Int × CTS) := do
  let p ← c.LT i
  match p.1 with
  | some t => .ok (t.typ, p.2)
  | none => .error errNil

/-- `Consume()` from the Go source, including the `SkipEofCheck`
optimization over `fetchedEOF` and the buffer length. -/
def CTS.Consume (c : CTS) : Except String CTS := do
  let skip : Bool :=
    if 0 ≤ c.index then
      if c.fetchedEOF then decide (c.index < (c.tokens.length : Int) - 1)
      else decide (c.index < (c.tokens.length : Int))
    else false
  let c1 ← (if skip then .ok c else do
    let p ← c.LA 1
    if p.1 = TokenEOF then .error errConsume else .ok p.2)
  let r := c1.Sync (c1.index + 1)
  if r.1 then do
    let p ← r.2.adjustSeekIndex (r.2.index + 1)
    .ok { p.2 with index := p.1 }
  else .ok r.2

/-- `SetTokenSource`: rebind the source, clear the buffer, reset the
cursor.  The Go code does not touch `fetchedEOF`. -/
def CTS.SetTokenSource (c : CTS) (src : TokenSource) : CTS :=
  { c with tokenSource := src, tokens := [], index := -1 }

/-- The loop of `Fill()`: fetch in batches of 1000 until a batch comes up
short. -/
def fillLoop : Nat → CTS → CTS
  | 0, c => c
  | fuel + 1, c =>
    let r := c.fetch 1000
    if r.1 = 1000 then fillLoop fuel r.2 else r.2

/-- `Fill()` from the Go source. -/
def CTS.Fill (c : CTS) : Except String CTS := do
  let c1 ← c.lazyInit
  .ok (fillLoop (c1.tokenSource.toks.length + 1) c1)

/-- The loop of `filterForChannel`: collect, from `left` to `right`
inclusive, the tokens admitted by the channel filter (`-1` admits any
non-default channel; otherwise the channel must match exactly). -/
def filterLoop : Nat → CTS → Int → Int → Except String (List Tok)
  | 0, _, _, _ => .ok []
  | fuel + 1, c, i, channel => do
    let t ← getTok c.tokens i
    let rest ← filterLoop fuel c (i + 1) channel
    if channel = -1 then
      if t.channel ≠ LexerDefaultTokenChannel then .ok (t :: rest) else .ok rest
    else if t.channel = channel then .ok (t :: rest) else .ok rest

/-- `filterForChannel(left, right, channel)` from the Go source; `none`
models the Go `nil` result for an empty collection. -/
def CTS.filterForChannel (c : CTS) (left right channel : Int) :
    Except String (Option (List Tok)) := do
  let hidden ← filterLoop (right + 1 - left).toNat c left channel
  if hidden.isEmpty then .ok none else .ok (some hidden)

/-- `getHiddenTokensToRight(tokenIndex, channel)` from the Go source. -/
def CTS.getHiddenTokensToRight (c : CTS) (tokenIndex channel : Int) :
    Except String (Option (List Tok) × CTS) := do
  let c1 ← c.lazyInit
  if tokenIndex < 0 ∨ (c1.tokens.length : Int) ≤ tokenIndex then .error errHidden
  else do
    let p ← c1.NextTokenOnChannel (tokenIndex + 1) LexerDefaultTokenChannel
    let toIdx : Int := if p.1 = -1 then (p.2.tokens.length : Int) - 1 else p.1
    let r ← p.2.filterForChannel (tokenIndex + 1) toIdx channel
    .ok (r, p.2)

/-- `getHiddenTokensToLeft(tokenIndex, channel)` from the Go source. -/
def CTS.getHiddenTokensToLeft (c : CTS) (tokenIndex channel : Int) :
    Except String (Option (List Tok) × CTS) := do
  let c1 ← c.lazyInit
  if tokenIndex < 0 ∨ (c1.tokens.length : Int) ≤ tokenIndex then .error errHidden
  else do
    let prev ← c1.previousTokenOnChannel (tokenIndex - 1) LexerDefaultTokenChannel
    if prev = tokenIndex - 1 then .ok (none, c1)
    else do
      let r ← c1.filterForChannel (prev + 1) (tokenIndex - 1) channel
      .ok (r, c1)

/-- The concatenation loop of `GetTextFromInterval`: from `start` for the
given number of positions, stop (excluding it) at the first end-of-stream
token.  All accesses are in bounds at every call site, so the total `tokAt`
is used, as in the Go loop. -/
def textLoop : Nat → CTS → Int → String
  | 0, _, _ => ""
  | fuel + 1, c, i =>
    let t := tokAt c i.toNat
    if t.typ = TokenEOF then "" else t.text ++ textLoop fuel c (i + 1)

/-- `GetTextFromInterval` from the Go source: lazy-init, fill, default the
interval to the whole buffer, return empty on a negative bound, clamp
`stop`, concatenate. -/
def CTS.GetTextFromInterval (c : CTS) (interval : Option (Int × Int)) :
    Except String (String × CTS) := do
  let c1 ← c.lazyInit
  let c2 ← c1.Fill
  let se : Int × Int := match interval with
    | none => (0, (c2.tokens.length : Int) - 1)
    | some p => p
  if se.1 < 0 ∨ se.2 < 0 then .ok ("", c2)
  else
    let stop : Int :=
      if (c2.tokens.length : Int) ≤ se.2 then (c2.tokens.length : Int) - 1 else se.2
    .ok (textLoop (stop + 1 - se.1).toNat c2 se.1, c2)

/-- `GetAllText()` = text of the whole buffer. -/
def CTS.GetAllText (c : CTS) : Except String (String × CTS) :=
  c.GetTextFromInterval none

deriving instance DecidableEq for Except

/-! ## State invariant of reachable streams -/

/-- Invariant of every stream state reachable through the API from
`NewCommonTokenStream` over a well-formed source: the source's terminal
token really has the end-of-stream type; buffered token indices equal
their positions; an end-of-stream token occurs only as the last buffered
token and only once `fetchedEOF` is set; once `fetchedEOF` is set the last
buffered token (if any) is the end-of-stream token; the buffer never holds
more than the source can produce; and the cursor is -1 or a valid
on-channel position. -/
def StreamInv (c : CTS) : Prop :=
  c.tokenSource.eofTok.typ = TokenEOF ∧
  (∀ m, m < c.tokens.length → (tokAt c m).tokenIndex = (m : Int)) ∧
  (∀ m, m < c.tokens.length → (tokAt c m).typ = TokenEOF →
    c.fetchedEOF = true ∧ m + 1 = c.tokens.length) ∧
  (c.fetchedEOF = true → c.tokens ≠ [] →
    (tokAt c (c.tokens.length - 1)).typ = TokenEOF) ∧
  (c.fetchedEOF = false → c.tokens.length ≤ c.tokenSource.toks.length) ∧
  (c.fetchedEOF = true → c.tokens.length ≤ c.tokenSource.toks.length + 1) ∧
  (c.index = -1 ∨ (0 ≤ c.index ∧ c.index < (c.tokens.length : Int) ∧
    (tokAt c c.index.toNat).channel = c.channel))

instance (c : CTS) : Decidable (StreamInv c) := by unfold StreamInv; infer_instance

/-- Every end-of-stream token the stream can ever see (buffered, in the
source's finite part, or the terminal token) lies on the stream's
configured channel.  This holds in ANTLR practice, where lexers emit the
end-of-stream token on the default channel and streams are built over the
default channel. -/
def EOC (c : CTS) : Prop :=
  (∀ m, m < c.tokens.length → (tokAt c m).typ = TokenEOF →
    (tokAt c m).channel = c.channel) ∧
  (∀ p, p < c.tokenSource.toks.length →
    (c.tokenSource.toks.getD p dTok).typ = TokenEOF →
    (c.tokenSource.toks.getD p dTok).channel = c.channel) ∧
  (c.tokenSource.eofTok.typ = TokenEOF → c.tokenSource.eofTok.channel = c.channel)

instance (c : CTS) : Decidable (EOC c) := by unfold EOC; infer_instance

/-- The buffer is nonempty whenever `fetchedEOF` is set.  True for every
state reachable without `SetTokenSource`; rebinding the source after the
end-of-stream token was fetched violates it. -/
def NZ (c : CTS) : Prop := c.fetchedEOF = true → c.tokens ≠ []

instance (c : CTS) : Decidable (NZ c) := by unfold NZ; infer_instance

/-- Evolution relation between a state and the state after an operation:
source and channel are untouched, the buffer only grows by appending, and
the three state predicates are preserved. -/
def StreamExt (c c' : CTS) : Prop :=
  c'.tokenSource = c.tokenSource ∧ c'.channel = c.channel ∧
  (∃ ts, c'.tokens = c.tokens ++ ts) ∧
  (StreamInv c → StreamInv c') ∧ (EOC c → EOC c') ∧ (NZ c → NZ c')

theorem StreamExt.refl (c : CTS) : StreamExt c c :=
  ⟨rfl, rfl, ⟨[], (List.append_nil _).symm⟩, id, id, id⟩

theorem StreamExt.trans {a b c : CTS} (h1 : StreamExt a b) (h2 : StreamExt b c) : StreamExt a c := by
  obtain ⟨s1, c1, ⟨t1, e1⟩, i1, o1, n1⟩ := h1
  obtain ⟨s2, c2, ⟨t2, e2⟩, i2, o2, n2⟩ := h2
  exact ⟨s2.trans s1, c2.trans c1, ⟨t1 ++ t2, by rw [e2, e1, List.append_assoc]⟩,
    i2 ∘ i1, o2 ∘ o1, n2 ∘ n1⟩

theorem StreamExt.len_le {c c' : CTS} (h : StreamExt c c') : c.tokens.length ≤ c'.tokens.length := by
  obtain ⟨-, -, ⟨ts, e⟩, -⟩ := h
  rw [e, List.length_append]; omega

theorem StreamExt.tokAt_eq {c c' : CTS} (h : StreamExt c c') {m : Nat} (hm : m < c.tokens.length) :
    tokAt c' m = tokAt c m := by
  obtain ⟨-, -, ⟨ts, e⟩, -⟩ := h
  simp only [tokAt, e, List.getD_append _ _ _ _ hm]

/-! ## Basic lemmas about `getTok` and `fetch` -/

theorem getTok_ok {ts : List Tok} {i : Int} (h0 : 0 ≤ i) (h1 : i < (ts.length : Int)) :
    getTok ts i = .ok (ts.getD i.toNat dTok) := by
  simp [getTok, h0, h1]

theorem getTok_err {ts : List Tok} {i : Int} (h : ¬(0 ≤ i ∧ i < (ts.length : Int))) :
    getTok ts i = .error errRange := by
  simp only [getTok, if_neg h]

theorem fetchLoop_frame (n : Nat) (c : CTS) :
    (fetchLoop n c).2.tokenSource = c.tokenSource ∧ (fetchLoop n c).2.index = c.index ∧
    (fetchLoop n c).2.channel = c.channel := by
  induction n generalizing c with
  | zero => exact ⟨rfl, rfl, rfl⟩
  | succ n ih =>
    simp only [fetchLoop]
    split
    · exact ⟨rfl, rfl, rfl⟩
    · exact ih _

theorem fetchLoop_tokens (n : Nat) (c : CTS) :
    ∃ ts, (fetchLoop n c).2.tokens = c.tokens ++ ts ∧ ts.length = (fetchLoop n c).1 := by
  induction n generalizing c with
  | zero => exact ⟨[], by simp [fetchLoop]⟩
  | succ n ih =>
    simp only [fetchLoop]
    split
    · exact ⟨_, rfl, by simp⟩
    · obtain ⟨ts, e, hl⟩ := ih {c with tokens := c.tokens ++ [_]}
      exact ⟨_ :: ts, by simpa [List.append_assoc] using e, by simpa using hl⟩

theorem fetchLoop_le (n : Nat) (c : CTS) : (fetchLoop n c).1 ≤ n := by
  induction n generalizing c with
  | zero => simp [fetchLoop]
  | succ n ih =>
    simp only [fetchLoop]
    split
    · omega
    · exact Nat.succ_le_succ (ih _)

theorem fetchLoop_pos (n : Nat) (c : CTS) (h : 1 ≤ n) : 1 ≤ (fetchLoop n c).1 := by
  cases n with
  | zero => omega
  | succ n =>
    simp only [fetchLoop]
    split
    · omega
    · omega

theorem fetchLoop_feof_of_lt (n : Nat) (c : CTS) (h : (fetchLoop n c).1 < n) :
    (fetchLoop n c).2.fetchedEOF = true := by
  induction n generalizing c with
  | zero => omega
  | succ n ih =>
    revert h
    simp only [fetchLoop]
    split
    · intro _; rfl
    · intro h; exact ih _ (by omega)

theorem getD_concat_lt {l : List Tok} {t : Tok} {m : Nat} (h : m < l.length) :
    (l ++ [t]).getD m dTok = l.getD m dTok :=
  List.getD_append _ _ _ _ h

theorem getD_concat_last {l : List Tok} {t : Tok} :
    (l ++ [t]).getD l.length dTok = t := by
  rw [List.getD_append_right _ _ _ _ (le_refl _)]
  simp

theorem fetchLoop_inv (n : Nat) (c : CTS) (hI : StreamInv c) (hf : c.fetchedEOF = false) :
    StreamInv (fetchLoop n c).2 := by
  induction n generalizing c with
  | zero => simpa [fetchLoop] using hI
  | succ n ih =>
    obtain ⟨hwf, hidx, heof, hlast, hle, hle2, hix⟩ := hI
    have hnoeof : ∀ m, m < c.tokens.length → (tokAt c m).typ ≠ TokenEOF := by
      intro m hm hcon
      have := (heof m hm hcon).1
      rw [hf] at this
      exact Bool.false_ne_true this
    simp only [fetchLoop]
    split
    case isTrue heq =>
      refine ⟨hwf, ?_, ?_, ?_, ?_, ?_, ?_⟩
      · intro m hm
        simp only [tokAt, List.length_append, List.length_singleton] at hm ⊢
        rcases Nat.lt_succ_iff_lt_or_eq.mp hm with h | h
        · rw [getD_concat_lt h]; exact hidx m h
        · subst h; rw [getD_concat_last]
      · intro m hm hm2
        simp only [tokAt, List.length_append, List.length_singleton] at hm hm2 ⊢
        rcases Nat.lt_succ_iff_lt_or_eq.mp hm with h | h
        · rw [getD_concat_lt h] at hm2
          exact absurd hm2 (hnoeof m h)
        · subst h; exact ⟨by simp, by simp⟩
      · intro _ _
        simp only [tokAt, List.length_append, List.length_singleton,
          Nat.add_sub_cancel]
        rw [getD_concat_last]
        exact heq
      · intro hcon; exact absurd hcon (by simp)
      · intro _
        simp only [List.length_append, List.length_singleton]
        have hlt : c.tokens.length < c.tokenSource.toks.length + 1 :=
          Nat.lt_succ_of_le (hle hf)
        omega
      · rcases hix with h | ⟨h1, h2, h3⟩
        · exact Or.inl h
        · refine Or.inr ⟨h1, ?_, ?_⟩
          · simp only [List.length_append, List.length_singleton]
            push_cast
            omega
          · simp only [tokAt] at h3 ⊢
            rw [getD_concat_lt (by omega)]
            exact h3
    case isFalse hne =>
      -- the appended token is not the end-of-stream token, so it came from
      -- the source's finite part
      have hsrc : c.tokens.length < c.tokenSource.toks.length := by
        by_contra hcon
        have : c.tokenSource.nextToken c.tokens.length = c.tokenSource.eofTok := by
          simp [TokenSource.nextToken, Nat.lt_of_not_le, hcon]
        exact hne (by simp [this, hwf])
      refine ih _ ⟨hwf, ?_, ?_, ?_, ?_, ?_, ?_⟩ hf
      · intro m hm
        simp only [tokAt, List.length_append, List.length_singleton] at hm ⊢
        rcases Nat.lt_succ_iff_lt_or_eq.mp hm with h | h
        · rw [getD_concat_lt h]; exact hidx m h
        · subst h; rw [getD_concat_last]
      · intro m hm hm2
        simp only [tokAt, List.length_append, List.length_singleton] at hm hm2 ⊢
        rcases Nat.lt_succ_iff_lt_or_eq.mp hm with h | h
        · rw [getD_concat_lt h] at hm2
          exact absurd hm2 (hnoeof m h)
        · subst h; rw [getD_concat_last] at hm2; exact absurd hm2 hne
      · intro hcon; rw [hf] at hcon; exact absurd hcon (by simp)
      · intro _
        simp only [List.length_append, List.length_singleton]
        omega
      · intro hcon; rw [hf] at hcon; exact absurd hcon (by simp)
      · rcases hix with h | ⟨h1, h2, h3⟩
        · exact Or.inl h
        · refine Or.inr ⟨h1, ?_, ?_⟩
          · simp only [List.length_append, List.length_singleton]
            push_cast
            omega
          · simp only [tokAt] at h3 ⊢
            rw [getD_concat_lt (by omega)]
            exact h3

theorem fetchLoop_eoc (n : Nat) (c : CTS) (hE : EOC c) : EOC (fetchLoop n c).2 := by
  induction n generalizing c with
  | zero => simpa [fetchLoop] using hE
  | succ n ih =>
    obtain ⟨hb, hs, he⟩ := hE
    have hnew : ∀ cc : CTS, cc.tokens = c.tokens ++
        [{ c.tokenSource.nextToken c.tokens.length with
            tokenIndex := (c.tokens.length : Int) }] →
        cc.channel = c.channel → cc.tokenSource = c.tokenSource → EOC cc := by
      intro cc hcc hch hsrc
      refine ⟨?_, ?_, ?_⟩
      · intro m hm hm2
        simp only [tokAt, hcc, hch, List.length_append, List.length_singleton] at hm hm2 ⊢
        rcases Nat.lt_succ_iff_lt_or_eq.mp hm with h | h
        · rw [getD_concat_lt h] at hm2 ⊢
          exact hb m h hm2
        · subst h
          rw [getD_concat_last] at hm2 ⊢
          simp only [TokenSource.nextToken] at hm2 ⊢
          split at hm2
          case isTrue hin =>
            simp only [TokenSource.nextToken, if_pos hin]
            exact hs _ hin hm2
          case isFalse hin =>
            simp only [TokenSource.nextToken, if_neg hin]
            exact he hm2
      · intro p hp; rw [hsrc, hch]; rw [hsrc] at hp; exact hs p hp
      · rw [hsrc, hch]; exact he
    simp only [fetchLoop]
    split
    · exact hnew _ rfl rfl rfl
    · exact ih _ (hnew _ rfl rfl rfl)

theorem fetchLoop_nz (n : Nat) (c : CTS) (hN : NZ c) : NZ (fetchLoop n c).2 := by
  induction n generalizing c with
  | zero => simpa [fetchLoop] using hN
  | succ n ih =>
    simp only [fetchLoop]
    split
    · intro _; simp
    · refine ih _ ?_
      intro hf
      simp only at hf ⊢
      have := hN hf
      simp

theorem fetch_feof_id (c : CTS) (n : Nat) (h : c.fetchedEOF = true) :
    c.fetch n = (0, c) := by
  simp [CTS.fetch, h]

theorem fetch_frame (c : CTS) (n : Nat) :
    (c.fetch n).2.tokenSource = c.tokenSource ∧ (c.fetch n).2.index = c.index ∧
    (c.fetch n).2.channel = c.channel := by
  unfold CTS.fetch
  split
  · exact ⟨rfl, rfl, rfl⟩
  · exact fetchLoop_frame n c

theorem fetch_tokens (c : CTS) (n : Nat) :
    ∃ ts, (c.fetch n).2.tokens = c.tokens ++ ts ∧ ts.length = (c.fetch n).1 := by
  unfold CTS.fetch
  split
  · exact ⟨[], by simp⟩
  · exact fetchLoop_tokens n c

theorem fetch_inv (c : CTS) (n : Nat) (hI : StreamInv c) : StreamInv (c.fetch n).2 := by
  unfold CTS.fetch
  split
  · exact hI
  case isFalse h => exact fetchLoop_inv n c hI (Bool.not_eq_true _ ▸ h)

theorem fetch_eoc (c : CTS) (n : Nat) (hE : EOC c) : EOC (c.fetch n).2 := by
  unfold CTS.fetch
  split
  · exact hE
  · exact fetchLoop_eoc n c hE

theorem fetch_nz (c : CTS) (n : Nat) (hN : NZ c) : NZ (c.fetch n).2 := by
  unfold CTS.fetch
  split
  · exact hN
  · exact fetchLoop_nz n c hN

theorem fetch_ext (c : CTS) (n : Nat) : StreamExt c (c.fetch n).2 := by
  obtain ⟨h1, -, h3⟩ := fetch_frame c n
  obtain ⟨ts, h4, -⟩ := fetch_tokens c n
  exact ⟨h1, h3, ⟨ts, h4⟩, fetch_inv c n, fetch_eoc c n, fetch_nz c n⟩

theorem fetch_lt_feof (c : CTS) (n : Nat) (h : (c.fetch n).1 < n) :
    (c.fetch n).2.fetchedEOF = true := by
  revert h
  unfold CTS.fetch
  split
  case isTrue hf => intro _; exact hf
  · exact fetchLoop_feof_of_lt n c

theorem fetch_le (c : CTS) (n : Nat) : (c.fetch n).1 ≤ n := by
  unfold CTS.fetch
  split
  · simp
  · exact fetchLoop_le n c

theorem fetch_len (c : CTS) (n : Nat) :
    (c.fetch n).2.tokens.length = c.tokens.length + (c.fetch n).1 := by
  obtain ⟨ts, h, hl⟩ := fetch_tokens c n
  rw [h, List.length_append, hl]

theorem ebind_ok {α β : Type} (a : α) (f : α → Except String β) :
    (Except.ok a : Except String α) >>= f = f a := rfl

theorem ebind_err {α β : Type} (e : String) (f : α → Except String β) :
    (Except.error e : Except String α) >>= f = .error e := rfl

/-! ## Lemmas about `Sync` -/

theorem sync_ext (c : CTS) (i : Int) : StreamExt c (c.Sync i).2 := by
  simp only [CTS.Sync]
  split
  · exact fetch_ext c _
  · exact StreamExt.refl c

theorem sync_index (c : CTS) (i : Int) : (c.Sync i).2.index = c.index := by
  simp only [CTS.Sync]
  split
  · exact (fetch_frame c _).2.1
  · rfl

theorem sync_noop (c : CTS) (i : Int) (h : i < (c.tokens.length : Int)) :
    c.Sync i = (true, c) := by
  simp only [CTS.Sync]
  rw [if_neg (by omega)]

theorem sync_feof_id (c : CTS) (i : Int) (h : c.fetchedEOF = true) :
    (c.Sync i).2 = c := by
  simp only [CTS.Sync]
  split
  · rw [fetch_feof_id c _ h]
  · rfl

theorem sync_iff_aux (L F : Nat) (i : Int) (h : 0 < i - (L : Int) + 1) :
    (i - (L : Int) + 1).toNat ≤ F ↔ i < ((L + F : Nat) : Int) := by
  omega

theorem sync_true_iff (c : CTS) (i : Int) :
    (c.Sync i).1 = true ↔ i < ((c.Sync i).2.tokens.length : Int) := by
  simp only [CTS.Sync]
  split
  case isTrue h =>
    have hlen := fetch_len c (i - (c.tokens.length : Int) + 1).toNat
    dsimp only
    simp only [decide_eq_true_eq, hlen]
    exact sync_iff_aux _ _ _ h
  case isFalse h => simp; omega

theorem sync_false_feof (c : CTS) (i : Int) (h : (c.Sync i).1 = false) :
    (c.Sync i).2.fetchedEOF = true := by
  revert h
  simp only [CTS.Sync]
  split
  case isTrue hn =>
    intro h
    rw [decide_eq_false_iff_not] at h
    refine fetch_lt_feof c _ ?_
    exact Nat.lt_of_not_le h
  · intro h; exact absurd h (by simp)

theorem sync_feof_mono (c : CTS) (i : Int) (h : c.fetchedEOF = true) :
    (c.Sync i).2.fetchedEOF = true := by
  rw [sync_feof_id c i h]; exact h

/-! ## The `NextTokenOnChannel` characterization -/

/-- Decreasing measure for the forward-scan loop: how many positions remain
before the scan must terminate. -/
def ntocMeasure (c : CTS) (i : Int) : Nat :=
  (if c.fetchedEOF then c.tokens.length else c.tokenSource.toks.length + 1) - i.toNat

/-- Result relation of the forward scan from raw index `i`: either the
returned index is the first on-channel position at or after `i`, or it is
-1, the buffer is complete, and no buffered position at or after `i` is on
the stream's channel. -/
def NtocRes (c : CTS) (i : Int) (j : Int) (c' : CTS) : Prop :=
  (0 ≤ j ∧ i ≤ j ∧ j < (c'.tokens.length : Int) ∧
    (tokAt c' j.toNat).channel = c.channel ∧
    ∀ m : Nat, i ≤ (m : Int) → (m : Int) < j → (tokAt c' m).channel ≠ c.channel)
  ∨ (j = -1 ∧ c'.fetchedEOF = true ∧
    ∀ m : Nat, i ≤ (m : Int) → m < c'.tokens.length → (tokAt c' m).channel ≠ c.channel)

theorem ntocLoop_spec (fuel : Nat) (c : CTS) (i : Int) (hI : StreamInv c)
    (hi0 : 0 ≤ i) (hi1 : i < (c.tokens.length : Int))
    (hfu : ntocMeasure c i ≤ fuel) :
    ∃ j c', ntocLoop fuel c i = .ok (j, c') ∧ StreamExt c c' ∧
      c'.index = c.index ∧ NtocRes c i j c' := by
  induction fuel generalizing c i with
  | zero =>
    exfalso
    obtain ⟨-, -, -, -, hle, -, -⟩ := hI
    revert hfu
    unfold ntocMeasure
    split
    · omega
    case isFalse h =>
      have := hle (Bool.not_eq_true _ ▸ h)
      omega
  | succ fuel ih =>
    obtain ⟨hwf, hidx, heof, hlast, hle, hle2, hix⟩ := hI
    simp only [ntocLoop, getTok_ok hi0 hi1, ebind_ok]
    by_cases hch : (c.tokens.getD i.toNat dTok).channel = c.channel
    · rw [if_pos hch]
      refine ⟨i, c, rfl, StreamExt.refl c, rfl, Or.inl ⟨hi0, le_refl i, hi1, hch, ?_⟩⟩
      intro m hm1 hm2
      omega
    · rw [if_neg hch]
      by_cases htyp : (c.tokens.getD i.toNat dTok).typ = TokenEOF
      · rw [if_pos htyp]
        obtain ⟨hfe, hlen⟩ := heof i.toNat (by omega) htyp
        refine ⟨-1, c, rfl, StreamExt.refl c, rfl, Or.inr ⟨rfl, hfe, ?_⟩⟩
        intro m hm1 hm2
        have : m = i.toNat := by omega
        subst this
        exact hch
      · rw [if_neg htyp]
        set c2 := (c.Sync (i + 1)).2 with hc2
        have hext2 : StreamExt c c2 := sync_ext c (i + 1)
        have hI2 : StreamInv c2 :=
          hext2.2.2.2.1 ⟨hwf, hidx, heof, hlast, hle, hle2, hix⟩
        have hfeq : c.fetchedEOF = true → c2 = c := fun h => by
          rw [hc2, sync_feof_id c _ h]
        -- the next position exists in the synced buffer
        have hlen2 : i + 1 < (c2.tokens.length : Int) := by
          by_cases hcase : i + 1 < (c.tokens.length : Int)
          · rw [hc2, sync_noop c _ hcase]
            exact hcase
          · -- `i` is the last buffered position
            have hieq : i + 1 = (c.tokens.length : Int) := by omega
            have hnf : c.fetchedEOF = false := by
              by_contra hcon
              have hfe : c.fetchedEOF = true := by
                cases hb : c.fetchedEOF
                · exact absurd hb hcon
                · rfl
              have hne : c.tokens ≠ [] := by
                intro hnil
                rw [hnil] at hi1
                simp at hi1
                omega
              have := hlast hfe hne
              have hieq2 : i.toNat = c.tokens.length - 1 := by omega
              rw [← hieq2] at this
              exact htyp this
            have hpos : 1 ≤ (c.fetch (i + 1 - (c.tokens.length : Int) + 1).toNat).1 := by
              unfold CTS.fetch
              rw [if_neg (by rw [hnf]; exact Bool.false_ne_true)]
              exact fetchLoop_pos _ c (by omega)
            have hlenf := fetch_len c (i + 1 - (c.tokens.length : Int) + 1).toNat
            rw [hc2]
            simp only [CTS.Sync]
            rw [if_pos (by omega)]
            simp only
            omega
        -- the measure decreases
        have hmeas2 : ntocMeasure c2 (i + 1) ≤ fuel := by
          have htoks2 : c2.tokenSource.toks.length = c.tokenSource.toks.length := by
            rw [hext2.1]
          revert hfu
          unfold ntocMeasure
          by_cases hfc : c.fetchedEOF = true
          · rw [hfeq hfc]
            simp only [if_pos hfc]
            omega
          · have hnf : c.fetchedEOF = false := by
              cases hb : c.fetchedEOF
              · rfl
              · exact absurd hb hfc
            simp only [if_neg hfc]
            have hlec := hle hnf
            by_cases hfc2 : c2.fetchedEOF = true
            · simp only [if_pos hfc2]
              obtain ⟨-, -, -, -, -, hle2', -⟩ := hI2
              have := hle2' hfc2
              rw [htoks2] at this
              omega
            · simp only [if_neg hfc2]
              rw [htoks2]
              omega
        obtain ⟨j, c', hrun, hext', hidx', hres⟩ := ih c2 (i + 1) hI2 (by omega) hlen2 hmeas2
        refine ⟨j, c', hrun, hext2.trans hext', hidx'.trans (hc2 ▸ sync_index c (i + 1)), ?_⟩
        have hcc : c2.channel = c.channel := hext2.2.1
        have hext : StreamExt c c' := hext2.trans hext'
        rcases hres with ⟨hj0, hji, hjl, hjch, hall⟩ | ⟨hj, hfe, hall⟩
        · refine Or.inl ⟨hj0, by omega, hjl, by rw [hjch, hcc], ?_⟩
          intro m hm1 hm2
          by_cases hmi : (m : Int) = i
          · have : m = i.toNat := by omega
            subst this
            rw [hext.tokAt_eq (by omega)]
            exact hch
          · have := hall m (by omega) hm2
            rw [hcc] at this
            exact this
        · refine Or.inr ⟨hj, hfe, ?_⟩
          intro m hm1 hm2
          by_cases hmi : (m : Int) = i
          · have : m = i.toNat := by omega
            subst this
            rw [hext.tokAt_eq (by omega)]
            exact hch
          · have := hall m (by omega) hm2
            rw [hcc] at this
            exact this

theorem ntoc_spec (c : CTS) (i ch : Int) (hI : StreamInv c) (hi0 : 0 ≤ i) :
    ∃ j c', c.NextTokenOnChannel i ch = .ok (j, c') ∧ StreamExt c c' ∧
      c'.index = c.index ∧ NtocRes c i j c' := by
  have hextS : StreamExt c (c.Sync i).2 := sync_ext c i
  simp only [CTS.NextTokenOnChannel]
  split
  case isTrue hge =>
    refine ⟨-1, (c.Sync i).2, rfl, hextS, sync_index c i, Or.inr ⟨rfl, ?_, ?_⟩⟩
    · have hb : (c.Sync i).1 = false := by
        cases hb : (c.Sync i).1
        · rfl
        · rw [sync_true_iff] at hb; omega
      exact sync_false_feof c i hb
    · intro m hm1 hm2
      omega
  case isFalse hlt =>
    have hI1 : StreamInv (c.Sync i).2 := hextS.2.2.2.1 hI
    have hmeas : ntocMeasure (c.Sync i).2 i ≤
        (c.Sync i).2.tokenSource.toks.length + (c.Sync i).2.tokens.length + 2 := by
      unfold ntocMeasure
      split <;> omega
    obtain ⟨j, c', hrun, hext', hidx', hres⟩ :=
      ntocLoop_spec _ (c.Sync i).2 i hI1 hi0 (by omega) hmeas
    refine ⟨j, c', hrun, hextS.trans hext', hidx'.trans (sync_index c i), ?_⟩
    have hcc : (c.Sync i).2.channel = c.channel := hextS.2.1
    rcases hres with ⟨h1, h2, h3, h4, h5⟩ | ⟨h1, h2, h3⟩
    · exact Or.inl ⟨h1, h2, h3, by rw [h4, hcc], fun m a b => by
        rw [← hcc]; exact h5 m a b⟩
    · exact Or.inr ⟨h1, h2, fun m a b => by rw [← hcc]; exact h3 m a b⟩

theorem ntocLoop_feof_id (fuel : Nat) (c : CTS) (i : Int) (h : c.fetchedEOF = true) :
    ∀ j c', ntocLoop fuel c i = .ok (j, c') → c' = c := by
  induction fuel generalizing c i with
  | zero => intro j c' hcon; exact absurd hcon (by simp [ntocLoop])
  | succ fuel ih =>
    intro j c' hrun
    rw [ntocLoop] at hrun
    cases hg : getTok c.tokens i with
    | error e => rw [hg, ebind_err] at hrun; exact absurd hrun (by simp)
    | ok t =>
      rw [hg, ebind_ok] at hrun
      by_cases h1 : t.channel = c.channel
      · rw [if_pos h1] at hrun
        injection hrun with hrun
        injection hrun with _ hc
        exact hc.symm
      · rw [if_neg h1] at hrun
        by_cases h2 : t.typ = TokenEOF
        · rw [if_pos h2] at hrun
          injection hrun with hrun
          injection hrun with _ hc
          exact hc.symm
        · rw [if_neg h2] at hrun
          rw [sync_feof_id c (i + 1) h] at hrun
          exact ih c (i + 1) h j c' hrun

theorem ntoc_feof_id (c : CTS) (i ch : Int) (h : c.fetchedEOF = true) :
    ∀ j c', c.NextTokenOnChannel i ch = .ok (j, c') → c' = c := by
  intro j c' hrun
  rw [CTS.NextTokenOnChannel] at hrun
  simp only [sync_feof_id c i h] at hrun
  split at hrun
  · injection hrun with hrun
    injection hrun with _ hc
    exact hc.symm
  · exact ntocLoop_feof_id _ c i h j c' hrun

theorem inv_set_index (c : CTS) (j : Int) (hI : StreamInv c)
    (hj : j = -1 ∨ (0 ≤ j ∧ j < (c.tokens.length : Int) ∧
      (tokAt c j.toNat).channel = c.channel)) :
    StreamInv { c with index := j } := by
  obtain ⟨h1, h2, h3, h4, h5, h6, -⟩ := hI
  exact ⟨h1, h2, h3, h4, h5, h6, hj⟩

theorem ext_set_index (c c2 : CTS) (j : Int) (hext : StreamExt c c2)
    (hj : j = -1 ∨ (0 ≤ j ∧ j < (c2.tokens.length : Int) ∧
      (tokAt c2 j.toNat).channel = c2.channel)) :
    StreamExt c { c2 with index := j } := by
  obtain ⟨h1, h2, h3, h4, h5, h6⟩ := hext
  exact ⟨h1, h2, h3, fun hI => inv_set_index c2 j (h4 hI) hj,
    fun hE => h5 hE, fun hN => h6 hN⟩

theorem setup_spec (c : CTS) (hI : StreamInv c) :
    ∃ c1, c.setup = .ok c1 ∧ StreamExt c c1 ∧
      (c1.index = -1 → c1.fetchedEOF = true ∧
        ∀ m, m < c1.tokens.length → (tokAt c1 m).channel ≠ c1.channel) ∧
      (c1.index ≠ -1 → 0 ≤ c1.index ∧ c1.index < (c1.tokens.length : Int) ∧
        (tokAt c1 c1.index.toNat).channel = c1.channel) := by
  have hextS : StreamExt c (c.Sync 0).2 := sync_ext c 0
  have hI1 : StreamInv (c.Sync 0).2 := hextS.2.2.2.1 hI
  obtain ⟨j, c2, hrun, hext2, hidx2, hres⟩ :=
    ntoc_spec (c.Sync 0).2 0 (c.Sync 0).2.channel hI1 (le_refl 0)
  have hext : StreamExt c c2 := hextS.trans hext2
  refine ⟨{ c2 with index := j }, ?_, ?_, ?_, ?_⟩
  · rw [CTS.setup]
    show ((c.Sync 0).2.adjustSeekIndex 0) >>= _ = _
    rw [CTS.adjustSeekIndex, hrun, ebind_ok]
  · refine ext_set_index c c2 j hext ?_
    rcases hres with ⟨h1, h2, h3, h4, h5⟩ | ⟨h1, -, -⟩
    · exact Or.inr ⟨h1, h3, by rw [h4, hext2.2.1]⟩
    · exact Or.inl h1
  · intro hj
    have hj' : j = -1 := hj
    rcases hres with ⟨h1, -, -, -, -⟩ | ⟨-, h2, h3⟩
    · omega
    · refine ⟨h2, ?_⟩
      intro m hm
      have h4 := h3 m (by omega) hm
      rw [← hext2.2.1] at h4
      exact h4
  · intro hj
    have hj' : j ≠ -1 := hj
    rcases hres with ⟨h1, -, h3, h4, -⟩ | ⟨h1, -, -⟩
    · refine ⟨h1, h3, ?_⟩
      have h5 := h4
      rw [← hext2.2.1] at h5
      exact h5
    · exact absurd h1 hj'

theorem lazyInit_spec (c : CTS) (hI : StreamInv c) :
    ∃ c1, c.lazyInit = .ok c1 ∧ StreamExt c c1 ∧
      (c.index ≠ -1 → c1 = c) ∧
      (c1.index = -1 → c1.fetchedEOF = true ∧
        ∀ m, m < c1.tokens.length → (tokAt c1 m).channel ≠ c1.channel) ∧
      (c1.index ≠ -1 → 0 ≤ c1.index ∧ c1.index < (c1.tokens.length : Int) ∧
        (tokAt c1 c1.index.toNat).channel = c1.channel) := by
  by_cases h : c.index = -1
  · obtain ⟨c1, hrun, hext, hneg, hpos⟩ := setup_spec c hI
    refine ⟨c1, ?_, hext, fun hcon => absurd h hcon, hneg, hpos⟩
    rw [CTS.lazyInit, if_pos h]
    exact hrun
  · refine ⟨c, ?_, StreamExt.refl c, fun _ => rfl, fun hcon => absurd hcon h, ?_⟩
    · rw [CTS.lazyInit, if_neg h]
    · intro _hx
      obtain ⟨-, -, -, -, -, -, hix⟩ := hI
      rcases hix with h1 | h1
      · exact absurd h1 h
      · exact h1

/-! ## Concrete fixtures used by witnesses, counterexamples and scenarios -/

/-- An ordinary on-channel token with text `a`. -/
def tokA : Tok := ⟨1, 0, "a", -1⟩

/-- A hidden-channel token with text `b`. -/
def tokBh : Tok := ⟨1, 1, "b", -1⟩

/-- A hidden-channel token with text `c`. -/
def tokCh : Tok := ⟨1, 1, "c", -1⟩

/-- An ordinary on-channel token with text `d`. -/
def tokD : Tok := ⟨1, 0, "d", -1⟩

/-- The end-of-stream token, on the default channel. -/
def eofTok0 : Tok := ⟨TokenEOF, 0, "", -1⟩

/-- Source of the hidden-token scenario: channels `[0, 1, 1, 0]` then EOF. -/
def hidSrc : TokenSource := ⟨[tokA, tokBh, tokCh, tokD], eofTok0⟩

/-- Fresh stream over `hidSrc`, filtering the default channel. -/
def hidStream : CTS := NewCommonTokenStream hidSrc 0

/-- The state of `hidStream` after `getHiddenTokensToRight 0 (-1)`. -/
def hidStream1 : CTS :=
  ⟨hidSrc, [⟨1, 0, "a", 0⟩, ⟨1, 1, "b", 1⟩, ⟨1, 1, "c", 2⟩, ⟨1, 0, "d", 3⟩], 0, false, 0⟩

/-- Source producing a single on-channel token `a` and then EOF. -/
def aSrc : TokenSource := ⟨[tokA], eofTok0⟩

/-- Fresh stream over `aSrc` on the default channel. -/
def aStream : CTS := NewCommonTokenStream aSrc 0

/-- `aStream` after its first lazy initialization. -/
def aStream1 : CTS := ⟨aSrc, [⟨1, 0, "a", 0⟩], 0, false, 0⟩

/-- `aStream` fully fetched (buffer `[a, EOF]`). -/
def aStreamDone : CTS := ⟨aSrc, [⟨1, 0, "a", 0⟩, ⟨TokenEOF, 0, "", 1⟩], 0, true, 0⟩

/-- Source that is immediately exhausted. -/
def eofOnlySrc : TokenSource := ⟨[], eofTok0⟩

/-- A stream configured for channel 1 while the end-of-stream token is on
channel 0: the lazy initialization leaves the cursor at -1. -/
def offChanStream : CTS := NewCommonTokenStream eofOnlySrc 1

/-- Source with the three on-channel tokens `a`, `b`, `c` and then EOF. -/
def abcSrc : TokenSource := ⟨[tokA, ⟨1, 0, "b", -1⟩, ⟨1, 0, "c", -1⟩], eofTok0⟩

/-- Fresh stream over `abcSrc` on the default channel. -/
def abcStream : CTS := NewCommonTokenStream abcSrc 0

/-- Folding a sequence of `fetch` calls over a stream state. -/
def foldFetch (c : CTS) (ns : List Nat) : CTS :=
  ns.foldl (fun a n => (a.fetch n).2) c

theorem foldFetch_feof_id (c : CTS) (h : c.fetchedEOF = true) (ns : List Nat) :
    foldFetch c ns = c := by
  induction ns with
  | nil => rfl
  | cons n ns ih =>
    show foldFetch ((c.fetch n).2) ns = c
    rw [fetch_feof_id c n h]
    exact ih

theorem inv_new (src : TokenSource) (ch : Int) (hwf : src.eofTok.typ = TokenEOF) :
    StreamInv (NewCommonTokenStream src ch) := by
  refine ⟨hwf, ?_, ?_, ?_, ?_, ?_, Or.inl rfl⟩
  · intro m hm; exact absurd hm (by simp [NewCommonTokenStream])
  · intro m hm; exact absurd hm (by simp [NewCommonTokenStream])
  · intro h; exact absurd h (by simp [NewCommonTokenStream])
  · intro _; simp [NewCommonTokenStream]
  · intro _; simp [NewCommonTokenStream]

/-! ## Claim C10 -/

/-- Claim C10: `SetTokenSource` replaces the source, empties the token
buffer and resets the cursor to -1, but leaves `fetchedEOF` unchanged;
consequently, if the end-of-stream token had been fetched before the
rebind, every later `fetch(n)` on the rebound stream is a no-op and the
buffer stays empty forever, so the new source is never consumed. -/
theorem setTokenSource_frame (c : CTS) (src : TokenSource) :
    (c.SetTokenSource src).fetchedEOF = c.fetchedEOF ∧
    (c.SetTokenSource src).tokens = [] ∧
    (c.SetTokenSource src).index = -1 ∧
    (c.SetTokenSource src).tokenSource = src ∧
    (c.fetchedEOF = true → (∀ n, (c.SetTokenSource src).fetch n = (0, c.SetTokenSource src)) ∧
      ∀ ns : List Nat, foldFetch (c.SetTokenSource src) ns = c.SetTokenSource src ∧
        (foldFetch (c.SetTokenSource src) ns).tokens = []) := by
  refine ⟨rfl, rfl, rfl, rfl, ?_⟩
  intro h
  have hf : (c.SetTokenSource src).fetchedEOF = true := h
  refine ⟨fun n => fetch_feof_id _ n hf, fun ns => ?_⟩
  rw [foldFetch_feof_id _ hf ns]
  exact ⟨rfl, rfl⟩

/-- Witness for C10 at a concrete rebound stream. -/
theorem setTokenSource_frame_witness :
    aStreamDone.fetchedEOF = true ∧
    foldFetch (aStreamDone.SetTokenSource hidSrc) [3, 5] =
      aStreamDone.SetTokenSource hidSrc ∧
    (foldFetch (aStreamDone.SetTokenSource hidSrc) [3, 5]).tokens = [] :=
  ⟨rfl, ((setTokenSource_frame aStreamDone hidSrc).2.2.2.2 rfl).2 [3, 5]⟩

/-! ## Claim C6 -/

/-- Claim C6 counterexample: the spec says out-of-range raw gets clamp or
return an absent result rather than erroring, but `Get 5` on a stream whose
initialized buffer holds one token panics with index-out-of-range. -/
theorem get_counterexample : aStream.Get 5 = .error errRange := by decide

/-- Claim C6 (amended): a raw `Get` of an index at or beyond the buffer
length after lazy initialization signals the index-out-of-range panic; it
does not clamp and does not return an absent result. -/
theorem get_out_of_range (c : CTS) (i : Int) (c1 : CTS) (h1 : c.lazyInit = .ok c1)
    (hi : (c1.tokens.length : Int) ≤ i) :
    c.Get i = .error errRange := by
  rw [CTS.Get, h1, ebind_ok, getTok_err (by omega), ebind_err]

/-- Witness for the amended C6 at a concrete stream and index. -/
theorem get_out_of_range_witness : aStream.Get 5 = .error errRange :=
  get_out_of_range aStream 5 aStream1 (by decide) (by decide)

/-! ## Claim C2 -/

/-- Claim C2 counterexample: the claim quantifies over every index, but for
a negative index the Go code indexes `tokens[i]` with `i < 0` and panics
instead of yielding any cursor value. -/
theorem seek_counterexample : aStream.Seek (-5) = .error errRange := by decide

/-- Claim C2 (amended to non-negative indices): for every `i ≥ 0`, on a
state satisfying the reachable-state invariant, `Seek i` succeeds, and
`Index()` afterwards is either an index `≥ i` whose buffered token's
channel equals the stream's configured channel, or `-1`, in which case the
buffer is completely fetched and no buffered token at or after `i` is on
the configured channel. -/
theorem seek_index_spec (c : CTS) (i : Int) (hI : StreamInv c) (hi : 0 ≤ i) :
    ∃ c', c.Seek i = .ok c' ∧ StreamInv c' ∧
      ((0 ≤ c'.Index ∧ i ≤ c'.Index ∧ c'.Index < (c'.tokens.length : Int) ∧
        (tokAt c' c'.Index.toNat).channel = c.channel)
       ∨ (c'.Index = -1 ∧ c'.fetchedEOF = true ∧
         ∀ m : Nat, i ≤ (m : Int) → m < c'.tokens.length →
           (tokAt c' m).channel ≠ c.channel)) := by
  obtain ⟨c1, hrunL, hext1, -, -, -⟩ := lazyInit_spec c hI
  have hI1 : StreamInv c1 := hext1.2.2.2.1 hI
  obtain ⟨j, c2, hrun2, hext2, -, hres⟩ := ntoc_spec c1 i c1.channel hI1 hi
  have hch1 : c1.channel = c.channel := hext1.2.1
  refine ⟨{ c2 with index := j }, ?_, ?_, ?_⟩
  · rw [CTS.Seek, hrunL, ebind_ok, CTS.adjustSeekIndex, hrun2, ebind_ok]
  · refine inv_set_index c2 j (hext2.2.2.2.1 hI1) ?_
    rcases hres with ⟨h1, -, h3, h4, -⟩ | ⟨h1, -, -⟩
    · exact Or.inr ⟨h1, h3, by rw [h4, hext2.2.1]⟩
    · exact Or.inl h1
  · rcases hres with ⟨h1, h2, h3, h4, -⟩ | ⟨h1, h2, h3⟩
    · refine Or.inl ⟨h1, h2, h3, ?_⟩
      show (tokAt c2 j.toNat).channel = c.channel
      rw [h4, hch1]
    · refine Or.inr ⟨h1, h2, ?_⟩
      intro m hm1 hm2
      have h4 := h3 m hm1 hm2
      rw [hch1] at h4
      exact h4

/-- Witness for the amended C2 at a concrete stream and index. -/
theorem seek_index_spec_witness :
    ∃ c', abcStream.Seek 1 = .ok c' ∧ StreamInv c' ∧
      ((0 ≤ c'.Index ∧ 1 ≤ c'.Index ∧ c'.Index < (c'.tokens.length : Int) ∧
        (tokAt c' c'.Index.toNat).channel = abcStream.channel)
       ∨ (c'.Index = -1 ∧ c'.fetchedEOF = true ∧
         ∀ m : Nat, 1 ≤ (m : Int) → m < c'.tokens.length →
           (tokAt c' m).channel ≠ abcStream.channel)) :=
  seek_index_spec abcStream 1 (by decide) (by decide)

/-! ## Claim C3 -/

/-- Number of end-of-stream tokens in a buffer. -/
def countEOFtok (ts : List Tok) : Nat := ts.countP (fun t => decide (t.typ = TokenEOF))

theorem countEOF_one (ts : List Tok) (hne : ts ≠ [])
    (hlast : (ts.getD (ts.length - 1) dTok).typ = TokenEOF)
    (honly : ∀ m, m < ts.length → (ts.getD m dTok).typ = TokenEOF → m + 1 = ts.length) :
    countEOFtok ts = 1 := by
  have hsplit := List.dropLast_append_getLast hne
  have hlen : 0 < ts.length := List.length_pos.mpr hne
  unfold countEOFtok
  rw [← hsplit, List.countP_append]
  have hz : (ts.dropLast).countP (fun t => decide (t.typ = TokenEOF)) = 0 := by
    rw [List.countP_eq_zero]
    intro a ha
    obtain ⟨n, hn, hget⟩ := List.mem_iff_getElem.mp ha
    have hdl : ts.dropLast.length = ts.length - 1 := List.length_dropLast ts
    have hn' : n < ts.length := by omega
    have hv : ts.dropLast[n] = ts[n] := List.getElem_dropLast ts n hn
    intro hcon
    rw [decide_eq_true_eq] at hcon
    have : (ts.getD n dTok).typ = TokenEOF := by
      rw [List.getD_eq_getElem ts dTok hn', ← hv, hget]
      exact hcon
    have := honly n hn' this
    omega
  have ho : List.countP (fun t => decide (t.typ = TokenEOF)) [ts.getLast hne] = 1 := by
    have : ts.getLast hne = ts.getD (ts.length - 1) dTok := by
      rw [List.getLast_eq_getElem, List.getD_eq_getElem ts dTok (by omega)]
    simp only [List.countP_cons, List.countP_nil, this, hlast]
    simp
  omega

theorem foldFetch_inv (ns : List Nat) (c : CTS) (hI : StreamInv c) :
    StreamInv (foldFetch c ns) := by
  induction ns generalizing c with
  | nil => exact hI
  | cons n ns ih => exact ih _ (fetch_inv c n hI)

theorem foldFetch_nz (ns : List Nat) (c : CTS) (hN : NZ c) : NZ (foldFetch c ns) := by
  induction ns generalizing c with
  | nil => exact hN
  | cons n ns ih => exact ih _ (fetch_nz c n hN)

theorem foldFetch_src (ns : List Nat) (c : CTS) :
    (foldFetch c ns).tokenSource = c.tokenSource := by
  induction ns generalizing c with
  | nil => rfl
  | cons n ns ih =>
    show (foldFetch (c.fetch n).2 ns).tokenSource = c.tokenSource
    rw [ih _, (fetch_frame c n).1]

theorem fetchLoop_reach (n : Nat) (c : CTS) (hwf : c.tokenSource.eofTok.typ = TokenEOF)
    (hlen : c.tokenSource.toks.length + 1 ≤ c.tokens.length + n)
    (hle : c.tokens.length ≤ c.tokenSource.toks.length) :
    (fetchLoop n c).2.fetchedEOF = true := by
  induction n generalizing c with
  | zero => omega
  | succ n ih =>
    simp only [fetchLoop]
    split
    case isTrue h => rfl
    case isFalse hne =>
      have hsrc : c.tokens.length < c.tokenSource.toks.length := by
        by_contra hcon
        have : c.tokenSource.nextToken c.tokens.length = c.tokenSource.eofTok := by
          simp [TokenSource.nextToken, Nat.lt_of_not_le, hcon]
        exact hne (by simp [this, hwf])
      refine ih _ hwf ?_ ?_
      · simp only [List.length_append, List.length_singleton]
        omega
      · simp only [List.length_append, List.length_singleton]
        omega

/-- Claim C3: starting from a fresh stream over a well-formed source and
applying any sequence of `fetch(n)` calls, once exhaustion is reached
(`fetchedEOF`) the buffer holds exactly one end-of-stream token, located as
its last element, and every further `fetch(n)` is a no-op returning 0;
moreover a single further `fetch(len(source)+1)` always reaches
exhaustion, so continuing until exhaustion is always possible. -/
theorem fetch_exhaustion (src : TokenSource) (ch : Int) (ns : List Nat) (c' : CTS)
    (hwf : src.eofTok.typ = TokenEOF)
    (hc' : c' = foldFetch (NewCommonTokenStream src ch) ns) :
    (c'.fetchedEOF = true → countEOFtok c'.tokens = 1 ∧ c'.tokens ≠ [] ∧
      (tokAt c' (c'.tokens.length - 1)).typ = TokenEOF ∧
      ∀ n, c'.fetch n = (0, c')) ∧
    (c'.fetch (src.toks.length + 1)).2.fetchedEOF = true := by
  have hI0 : StreamInv (NewCommonTokenStream src ch) := inv_new src ch hwf
  have hN0 : NZ (NewCommonTokenStream src ch) := by
    intro hcon
    exact absurd hcon (by simp [NewCommonTokenStream])
  have hI' : StreamInv c' := hc' ▸ foldFetch_inv ns _ hI0
  have hN' : NZ c' := hc' ▸ foldFetch_nz ns _ hN0
  have hsrc' : c'.tokenSource = src := by rw [hc', foldFetch_src]; rfl
  obtain ⟨hwf', hidx', heof', hlast', hle', hle2', -⟩ := hI'
  constructor
  · intro hfe
    have hne := hN' hfe
    refine ⟨?_, hne, hlast' hfe hne, fun n => fetch_feof_id c' n hfe⟩
    refine countEOF_one c'.tokens hne (hlast' hfe hne) ?_
    intro m hm hm2
    exact (heof' m hm hm2).2
  · cases hb : c'.fetchedEOF
    · show (c'.fetch (src.toks.length + 1)).2.fetchedEOF = true
      rw [CTS.fetch, if_neg (by rw [hb]; exact Bool.false_ne_true)]
      refine fetchLoop_reach _ c' (by rw [hsrc']; exact hwf) ?_ ?_
      · rw [hsrc']
        omega
      · exact hle' hb
    · rw [fetch_feof_id c' _ hb]
      exact hb

/-- Witness for C3 at a concrete source and fetch sequence. -/
theorem fetch_exhaustion_witness :
    (((foldFetch (NewCommonTokenStream abcSrc 0) [2, 2]).fetchedEOF = true →
      countEOFtok (foldFetch (NewCommonTokenStream abcSrc 0) [2, 2]).tokens = 1 ∧
      (foldFetch (NewCommonTokenStream abcSrc 0) [2, 2]).tokens ≠ [] ∧
      (tokAt (foldFetch (NewCommonTokenStream abcSrc 0) [2, 2])
        ((foldFetch (NewCommonTokenStream abcSrc 0) [2, 2]).tokens.length - 1)).typ =
          TokenEOF ∧
      ∀ n, (foldFetch (NewCommonTokenStream abcSrc 0) [2, 2]).fetch n =
        (0, foldFetch (NewCommonTokenStream abcSrc 0) [2, 2])) ∧
    ((foldFetch (NewCommonTokenStream abcSrc 0) [2, 2]).fetch
      (abcSrc.toks.length + 1)).2.fetchedEOF = true) :=
  fetch_exhaustion abcSrc 0 [2, 2] _ (by decide) rfl

/-! ## Preservation lemmas that follow each operation's computation -/

theorem ebind_ok_inv {α β : Type} {x : Except String α} {f : α → Except String β} {b : β}
    (h : (x >>= f) = .ok b) : ∃ a, x = .ok a ∧ f a = .ok b := by
  cases x with
  | error e => rw [ebind_err] at h; exact absurd h (by simp)
  | ok a => exact ⟨a, rfl, by rwa [ebind_ok] at h⟩

theorem ntocLoop_pres (fuel : Nat) (c : CTS) (i : Int) (j : Int) (c' : CTS)
    (hrun : ntocLoop fuel c i = .ok (j, c')) :
    StreamExt c c' ∧ c'.index = c.index ∧
    (j = -1 ∨ (0 ≤ j ∧ j < (c'.tokens.length : Int) ∧
      (tokAt c' j.toNat).channel = c'.channel)) := by
  induction fuel generalizing c i with
  | zero => exact absurd hrun (by simp [ntocLoop])
  | succ fuel ih =>
    rw [ntocLoop] at hrun
    obtain ⟨t, hg, hrest⟩ := ebind_ok_inv hrun
    have hbounds : 0 ≤ i ∧ i < (c.tokens.length : Int) := by
      by_contra hcon
      rw [getTok_err hcon] at hg
      exact absurd hg (by simp)
    have ht : t = c.tokens.getD i.toNat dTok := by
      rw [getTok_ok hbounds.1 hbounds.2] at hg
      injection hg with h
      exact h.symm
    by_cases h1 : t.channel = c.channel
    · rw [if_pos h1] at hrest
      injection hrest with hrest
      injection hrest with hj hc
      subst hj
      subst hc
      exact ⟨StreamExt.refl c, rfl, Or.inr ⟨hbounds.1, hbounds.2,
        by simp only [tokAt]; rw [← ht]; exact h1⟩⟩
    · rw [if_neg h1] at hrest
      by_cases h2 : t.typ = TokenEOF
      · rw [if_pos h2] at hrest
        injection hrest with hrest
        injection hrest with hj hc
        subst hj
        subst hc
        exact ⟨StreamExt.refl c, rfl, Or.inl rfl⟩
      · rw [if_neg h2] at hrest
        obtain ⟨hx, hixx, hres⟩ := ih _ _ hrest
        exact ⟨(sync_ext c (i + 1)).trans hx, hixx.trans (sync_index c (i + 1)), hres⟩

theorem ntoc_pres (c : CTS) (i ch j : Int) (c' : CTS)
    (hrun : c.NextTokenOnChannel i ch = .ok (j, c')) :
    StreamExt c c' ∧ c'.index = c.index ∧
    (j = -1 ∨ (0 ≤ j ∧ j < (c'.tokens.length : Int) ∧
      (tokAt c' j.toNat).channel = c'.channel)) := by
  simp only [CTS.NextTokenOnChannel] at hrun
  split at hrun
  · injection hrun with hrun
    injection hrun with hj hc
    subst hc
    exact ⟨sync_ext c i, sync_index c i, Or.inl hj.symm⟩
  · obtain ⟨hx, hixx, hres⟩ := ntocLoop_pres _ _ _ _ _ hrun
    exact ⟨(sync_ext c i).trans hx, hixx.trans (sync_index c i), hres⟩

theorem setup_pres (c c1 : CTS) (hrun : c.setup = .ok c1) : StreamExt c c1 := by
  simp only [CTS.setup, CTS.adjustSeekIndex] at hrun
  obtain ⟨p, hg, hrest⟩ := ebind_ok_inv hrun
  injection hrest with hrest
  obtain ⟨j, c2⟩ := p
  obtain ⟨hx, -, hres⟩ := ntoc_pres _ _ _ _ _ hg
  rw [← hrest]
  exact ext_set_index _ c2 j ((sync_ext c 0).trans hx) hres

theorem lazyInit_pres (c c1 : CTS) (hrun : c.lazyInit = .ok c1) : StreamExt c c1 := by
  rw [CTS.lazyInit] at hrun
  split at hrun
  · exact setup_pres c c1 hrun
  · injection hrun with h
    rw [← h]
    exact StreamExt.refl c

theorem fillLoop_pres (fuel : Nat) (c : CTS) :
    StreamExt c (fillLoop fuel c) ∧ (fillLoop fuel c).index = c.index := by
  induction fuel generalizing c with
  | zero => exact ⟨StreamExt.refl c, rfl⟩
  | succ fuel ih =>
    rw [fillLoop]
    split
    · obtain ⟨hx, hi⟩ := ih (c.fetch 1000).2
      exact ⟨(fetch_ext c 1000).trans hx, hi.trans (fetch_frame c 1000).2.1⟩
    · exact ⟨fetch_ext c 1000, (fetch_frame c 1000).2.1⟩

theorem fill_pres (c c2 : CTS) (hrun : c.Fill = .ok c2) : StreamExt c c2 := by
  rw [CTS.Fill] at hrun
  obtain ⟨c1, hg, hrest⟩ := ebind_ok_inv hrun
  injection hrest with hrest
  rw [← hrest]
  exact (lazyInit_pres c c1 hg).trans (fillLoop_pres _ c1).1

theorem ltLoop_pres (fuel : Nat) (c : CTS) (i i' : Int) (c' : CTS)
    (hrun : ltLoop fuel c i = .ok (i', c')) :
    StreamExt c c' ∧ c'.index = c.index := by
  induction fuel generalizing c i with
  | zero =>
    rw [ltLoop] at hrun
    injection hrun with hrun
    injection hrun with hi hc
    subst hc
    exact ⟨StreamExt.refl c, rfl⟩
  | succ fuel ih =>
    rw [ltLoop] at hrun
    split at hrun
    · obtain ⟨p, hg, hrest⟩ := ebind_ok_inv hrun
      obtain ⟨j, c2⟩ := p
      obtain ⟨hx1, hi1, -⟩ := ntoc_pres _ _ _ _ _ hg
      obtain ⟨hx2, hi2⟩ := ih _ _ hrest
      exact ⟨((sync_ext c (i + 1)).trans hx1).trans hx2,
        (hi2.trans hi1).trans (sync_index c (i + 1))⟩
    · obtain ⟨hx2, hi2⟩ := ih _ _ hrun
      exact ⟨(sync_ext c (i + 1)).trans hx2, hi2.trans (sync_index c (i + 1))⟩

theorem lt_pres (c : CTS) (k : Int) (t? : Option Tok) (c' : CTS)
    (hrun : c.LT k = .ok (t?, c')) : StreamExt c c' := by
  rw [CTS.LT] at hrun
  obtain ⟨c1, hg, hrest⟩ := ebind_ok_inv hrun
  have hx1 := lazyInit_pres c c1 hg
  split at hrest
  · injection hrest with h
    injection h with h1 h2
    rw [← h2]
    exact hx1
  · split at hrest
    · obtain ⟨topt, -, hrest2⟩ := ebind_ok_inv hrest
      injection hrest2 with h
      injection h with h1 h2
      rw [← h2]
      exact hx1
    · obtain ⟨p, hg2, hrest2⟩ := ebind_ok_inv hrest
      obtain ⟨i', c2⟩ := p
      obtain ⟨t, -, hrest3⟩ := ebind_ok_inv hrest2
      injection hrest3 with h
      injection h with h1 h2
      rw [← h2]
      exact hx1.trans (ltLoop_pres _ _ _ _ _ hg2).1

theorem la_pres (c : CTS) (k : Int) (v : Int) (c' : CTS)
    (hrun : c.LA k = .ok (v, c')) : StreamExt c c' := by
  rw [CTS.LA] at hrun
  obtain ⟨p, hg, hrest⟩ := ebind_ok_inv hrun
  obtain ⟨t?, c2⟩ := p
  cases t? with
  | some t =>
    simp only at hrest
    injection hrest with h
    injection h with h1 h2
    rw [← h2]
    exact lt_pres c k _ c2 hg
  | none => exact absurd hrest (by simp)

theorem consume_pres (c c' : CTS) (hrun : c.Consume = .ok c') : StreamExt c c' := by
  simp only [CTS.Consume, CTS.adjustSeekIndex] at hrun
  obtain ⟨c1, hg, hrest⟩ := ebind_ok_inv hrun
  have hx1 : StreamExt c c1 := by
    by_cases hb : ((if 0 ≤ c.index then
        if c.fetchedEOF = true then decide (c.index < (c.tokens.length : Int) - 1)
        else decide (c.index < (c.tokens.length : Int))
      else false) : Bool) = true
    · rw [if_pos hb] at hg
      injection hg with h
      rw [← h]
      exact StreamExt.refl c
    · rw [if_neg hb] at hg
      obtain ⟨p, hg2, hrest2⟩ := ebind_ok_inv hg
      obtain ⟨v, c2⟩ := p
      split at hrest2
      · exact absurd hrest2 (by simp)
      · injection hrest2 with h
        rw [← h]
        exact la_pres c 1 v c2 hg2
  split at hrest
  · obtain ⟨p, hg3, hrest3⟩ := ebind_ok_inv hrest
    obtain ⟨j, c3⟩ := p
    injection hrest3 with h
    obtain ⟨hx3, -, hres3⟩ := ntoc_pres _ _ _ _ _ hg3
    rw [← h]
    exact hx1.trans
      ((sync_ext c1 (c1.index + 1)).trans (ext_set_index _ c3 j hx3 hres3))
  · injection hrest with h
    rw [← h]
    exact hx1.trans (sync_ext c1 (c1.index + 1))

theorem seek_pres (c : CTS) (i : Int) (c' : CTS) (hrun : c.Seek i = .ok c') :
    StreamExt c c' := by
  rw [CTS.Seek] at hrun
  obtain ⟨c1, hg, hrest⟩ := ebind_ok_inv hrun
  rw [CTS.adjustSeekIndex] at hrest
  obtain ⟨p, hg2, hrest2⟩ := ebind_ok_inv hrest
  obtain ⟨j, c2⟩ := p
  injection hrest2 with h
  obtain ⟨hx2, -, hres2⟩ := ntoc_pres _ _ _ _ _ hg2
  rw [← h]
  exact (lazyInit_pres c c1 hg).trans (ext_set_index _ c2 j hx2 hres2)

theorem get_pres (c : CTS) (i : Int) (t : Tok) (c' : CTS)
    (hrun : c.Get i = .ok (t, c')) : StreamExt c c' := by
  rw [CTS.Get] at hrun
  obtain ⟨c1, hg, hrest⟩ := ebind_ok_inv hrun
  obtain ⟨t2, -, hrest2⟩ := ebind_ok_inv hrest
  injection hrest2 with h
  injection h with h1 h2
  rw [← h2]
  exact lazyInit_pres c c1 hg

theorem hiddenRight_pres (c : CTS) (i ch : Int) (r : Option (List Tok)) (c' : CTS)
    (hrun : c.getHiddenTokensToRight i ch = .ok (r, c')) : StreamExt c c' := by
  rw [CTS.getHiddenTokensToRight] at hrun
  obtain ⟨c1, hg, hrest⟩ := ebind_ok_inv hrun
  have hx1 := lazyInit_pres c c1 hg
  split at hrest
  · exact absurd hrest (by simp)
  · obtain ⟨p, hg2, hrest2⟩ := ebind_ok_inv hrest
    obtain ⟨j, c2⟩ := p
    obtain ⟨hx2, -, -⟩ := ntoc_pres _ _ _ _ _ hg2
    obtain ⟨l, -, hrest3⟩ := ebind_ok_inv hrest2
    injection hrest3 with h
    injection h with h1 h2
    rw [← h2]
    exact hx1.trans hx2

theorem hiddenLeft_pres (c : CTS) (i ch : Int) (r : Option (List Tok)) (c' : CTS)
    (hrun : c.getHiddenTokensToLeft i ch = .ok (r, c')) : StreamExt c c' := by
  rw [CTS.getHiddenTokensToLeft] at hrun
  obtain ⟨c1, hg, hrest⟩ := ebind_ok_inv hrun
  have hx1 := lazyInit_pres c c1 hg
  split at hrest
  · exact absurd hrest (by simp)
  · obtain ⟨j, -, hrest2⟩ := ebind_ok_inv hrest
    split at hrest2
    · injection hrest2 with h
      injection h with h1 h2
      rw [← h2]
      exact hx1
    · obtain ⟨l, -, hrest3⟩ := ebind_ok_inv hrest2
      injection hrest3 with h
      injection h with h1 h2
      rw [← h2]
      exact hx1

theorem text_pres (c : CTS) (iv : Option (Int × Int)) (s : String) (c' : CTS)
    (hrun : c.GetTextFromInterval iv = .ok (s, c')) : StreamExt c c' := by
  rw [CTS.GetTextFromInterval] at hrun
  obtain ⟨c1, hg, hrest⟩ := ebind_ok_inv hrun
  obtain ⟨c2, hg2, hrest2⟩ := ebind_ok_inv hrest
  have hx : StreamExt c c2 := (lazyInit_pres c c1 hg).trans (fill_pres c1 c2 hg2)
  cases iv with
  | none =>
    dsimp only at hrest2
    split at hrest2 <;>
      (injection hrest2 with h; injection h with h1 h2; rw [← h2]; exact hx)
  | some p =>
    dsimp only at hrest2
    split at hrest2 <;>
      (injection hrest2 with h; injection h with h1 h2; rw [← h2]; exact hx)

/-! ## Claim C4 -/

/-- The operations of the stream API that C4 quantifies over. -/
inductive Op where
  | opFetch (n : Nat)
  | opSync (i : Int)
  | opFill
  | opSeek (i : Int)
  | opConsume
  | opLT (k : Int)
  | opGet (i : Int)
  | opHiddenRight (i ch : Int)
  | opHiddenLeft (i ch : Int)
  | opText (iv : Option (Int × Int))

/-- Run an operation on a state, keeping only the resulting state. -/
def Op.run : Op → CTS → Except String CTS
  | .opFetch n, c => .ok (c.fetch n).2
  | .opSync i, c => .ok (c.Sync i).2
  | .opFill, c => c.Fill
  | .opSeek i, c => c.Seek i
  | .opConsume, c => c.Consume
  | .opLT k, c => do
    let r ← c.LT k
    .ok r.2
  | .opGet i, c => do
    let r ← c.Get i
    .ok r.2
  | .opHiddenRight i ch, c => do
    let r ← c.getHiddenTokensToRight i ch
    .ok r.2
  | .opHiddenLeft i ch, c => do
    let r ← c.getHiddenTokensToLeft i ch
    .ok r.2
  | .opText iv, c => do
    let r ← c.GetTextFromInterval iv
    .ok r.2

theorem op_run_ext (c : CTS) (op : Op) (c' : CTS) (hrun : op.run c = .ok c') :
    StreamExt c c' := by
  cases op with
  | opFetch n =>
    rw [Op.run] at hrun
    injection hrun with h
    rw [← h]
    exact fetch_ext c n
  | opSync i =>
    rw [Op.run] at hrun
    injection hrun with h
    rw [← h]
    exact sync_ext c i
  | opFill => exact fill_pres c c' hrun
  | opSeek i => exact seek_pres c i c' hrun
  | opConsume => exact consume_pres c c' hrun
  | opLT k =>
    rw [Op.run] at hrun
    obtain ⟨r, hg, hrest⟩ := ebind_ok_inv hrun
    obtain ⟨t?, c2⟩ := r
    injection hrest with h
    rw [← h]
    exact lt_pres c k t? c2 hg
  | opGet i =>
    rw [Op.run] at hrun
    obtain ⟨r, hg, hrest⟩ := ebind_ok_inv hrun
    obtain ⟨t, c2⟩ := r
    injection hrest with h
    rw [← h]
    exact get_pres c i t c2 hg
  | opHiddenRight i ch =>
    rw [Op.run] at hrun
    obtain ⟨r, hg, hrest⟩ := ebind_ok_inv hrun
    obtain ⟨l, c2⟩ := r
    injection hrest with h
    rw [← h]
    exact hiddenRight_pres c i ch l c2 hg
  | opHiddenLeft i ch =>
    rw [Op.run] at hrun
    obtain ⟨r, hg, hrest⟩ := ebind_ok_inv hrun
    obtain ⟨l, c2⟩ := r
    injection hrest with h
    rw [← h]
    exact hiddenLeft_pres c i ch l c2 hg
  | opText iv =>
    rw [Op.run] at hrun
    obtain ⟨r, hg, hrest⟩ := ebind_ok_inv hrun
    obtain ⟨s, c2⟩ := r
    injection hrest with h
    rw [← h]
    exact text_pres c iv s c2 hg

/-- Claim C4: on a reachable state, every buffered token's `tokenIndex`
equals its buffer position, and every API operation (fetch, sync, fill,
seek, consume, LT, get, hidden-token queries, text reconstruction) only
appends to the buffer — existing tokens are never moved, removed or
re-indexed, and newly appended tokens carry their append position. -/
theorem tokenIndex_stable (c : CTS) (op : Op) (c' : CTS) (hI : StreamInv c)
    (hrun : op.run c = .ok c') :
    (∃ ts, c'.tokens = c.tokens ++ ts) ∧
    (∀ m, m < c.tokens.length → tokAt c' m = tokAt c m) ∧
    (∀ m, m < c'.tokens.length → (tokAt c' m).tokenIndex = (m : Int)) := by
  have hx : StreamExt c c' := op_run_ext c op c' hrun
  refine ⟨hx.2.2.1, fun m hm => hx.tokAt_eq hm, ?_⟩
  obtain ⟨-, h2, -, -, -, -, -⟩ := hx.2.2.2.1 hI
  exact h2

/-- The state reached from `abcStream` by `fetch 2`. -/
def abcFetched2 : CTS := ⟨abcSrc, [⟨1, 0, "a", 0⟩, ⟨1, 0, "b", 1⟩], -1, false, 0⟩

/-- Witness for C4 at a concrete state and operation. -/
theorem tokenIndex_stable_witness :
    (∃ ts, abcFetched2.tokens = abcStream.tokens ++ ts) ∧
    (∀ m, m < abcStream.tokens.length → tokAt abcFetched2 m = tokAt abcStream m) ∧
    (∀ m, m < abcFetched2.tokens.length → (tokAt abcFetched2 m).tokenIndex = (m : Int)) :=
  tokenIndex_stable abcStream (Op.opFetch 2) abcFetched2 (by decide) (by decide)

/-! ## Claim C9 -/

theorem fillLoop_feof (fuel : Nat) (c : CTS) (hI : StreamInv c)
    (hfu : c.tokenSource.toks.length + 1 ≤ 1000 * fuel + c.tokens.length) :
    (fillLoop fuel c).fetchedEOF = true := by
  induction fuel generalizing c with
  | zero =>
    obtain ⟨-, -, -, -, hle, -, -⟩ := hI
    cases hb : c.fetchedEOF
    · have := hle hb
      omega
    · exact hb
  | succ fuel ih =>
    rw [fillLoop]
    split
    case isTrue h =>
      refine ih _ (fetch_inv c 1000 hI) ?_
      have hl := fetch_len c 1000
      rw [h] at hl
      have hsrc : (c.fetch 1000).2.tokenSource = c.tokenSource := (fetch_frame c 1000).1
      rw [hsrc, hl]
      omega
    case isFalse h =>
      refine fetch_lt_feof c 1000 ?_
      have := fetch_le c 1000
      omega

theorem fillLoop_feof_id (fuel : Nat) (c : CTS) (h : c.fetchedEOF = true) :
    fillLoop fuel c = c := by
  cases fuel with
  | zero => rfl
  | succ fuel =>
    rw [fillLoop, fetch_feof_id c 1000 h]
    simp

theorem fill_spec (c : CTS) (hI : StreamInv c) :
    ∃ c2, c.Fill = .ok c2 ∧ StreamExt c c2 ∧ c2.fetchedEOF = true ∧
      (c2.index = -1 → ∀ m, m < c2.tokens.length → (tokAt c2 m).channel ≠ c2.channel) := by
  obtain ⟨c1, hrunL, hext1, -, hneg, -⟩ := lazyInit_spec c hI
  have hI1 : StreamInv c1 := hext1.2.2.2.1 hI
  refine ⟨fillLoop (c1.tokenSource.toks.length + 1) c1, ?_, ?_, ?_, ?_⟩
  · rw [CTS.Fill, hrunL, ebind_ok]
  · exact hext1.trans (fillLoop_pres _ c1).1
  · exact fillLoop_feof _ c1 hI1 (by omega)
  · intro hidx
    have hieq : (fillLoop (c1.tokenSource.toks.length + 1) c1).index = c1.index :=
      (fillLoop_pres _ c1).2
    have hidx1 : c1.index = -1 := by rw [← hieq]; exact hidx
    obtain ⟨hfe1, hoff⟩ := hneg hidx1
    rw [fillLoop_feof_id _ c1 hfe1]
    exact hoff

/-- Claim C9: `Fill` is idempotent — for every reachable stream state, a
second `Fill` returns exactly the state produced by the first, so the
buffer after two fills is identical to the buffer after one. -/
theorem fill_idempotent (c : CTS) (hI : StreamInv c) :
    ∃ c', c.Fill = .ok c' ∧ c'.Fill = .ok c' := by
  obtain ⟨c2, hrun, hext, hfe, hoffn⟩ := fill_spec c hI
  refine ⟨c2, hrun, ?_⟩
  have hI2 : StreamInv c2 := hext.2.2.2.1 hI
  by_cases hidx : c2.index = -1
  · have hoff := hoffn hidx
    have hs0 : (c2.Sync 0).2 = c2 := sync_feof_id c2 0 hfe
    obtain ⟨j, c3, hrun3, hext3, hidx3, hres3⟩ := ntoc_spec c2 0 c2.channel hI2 (le_refl 0)
    have hc3 : c3 = c2 := ntoc_feof_id c2 0 c2.channel hfe j c3 hrun3
    have hj : j = -1 := by
      rcases hres3 with ⟨h1, -, h3, h4, -⟩ | ⟨h1, -, -⟩
      · exfalso
        subst hc3
        refine hoff j.toNat ?_ h4
        omega
      · exact h1
    have hset : c2.setup = .ok c2 := by
      rw [CTS.setup]
      show ((c2.Sync 0).2.adjustSeekIndex 0) >>= _ = _
      rw [hs0, CTS.adjustSeekIndex, hrun3, ebind_ok]
      subst hc3
      subst hj
      rw [← hidx]
    rw [CTS.Fill, CTS.lazyInit, if_pos hidx, hset, ebind_ok,
      fillLoop_feof_id _ c2 hfe]
  · rw [CTS.Fill, CTS.lazyInit, if_neg hidx, ebind_ok, fillLoop_feof_id _ c2 hfe]

/-- Witness for C9 at a concrete stream. -/
theorem fill_idempotent_witness :
    ∃ c', abcStream.Fill = .ok c' ∧ c'.Fill = .ok c' :=
  fill_idempotent abcStream (by decide)

/-! ## Claim C7 -/

/-- The shared channel-filter predicate: a requested channel of -1 admits
any token off the default channel; otherwise the token's channel must equal
the requested channel exactly. -/
def admitChannel (requested : Int) (t : Tok) : Bool :=
  if requested = -1 then !decide (t.channel = LexerDefaultTokenChannel)
  else decide (t.channel = requested)

theorem filterLoop_spec (fuel : Nat) (c : CTS) (i req : Int)
    (hi0 : 0 ≤ i) (hbound : i.toNat + fuel ≤ c.tokens.length) :
    filterLoop fuel c i req =
      .ok (((c.tokens.drop i.toNat).take fuel).filter (admitChannel req)) := by
  induction fuel generalizing i with
  | zero => simp [filterLoop]
  | succ fuel ih =>
    rw [filterLoop]
    have hlt : i.toNat < c.tokens.length := by omega
    rw [getTok_ok hi0 (by omega), ebind_ok, ih (i + 1) (by omega) (by omega), ebind_ok]
    have hsucc : (i + 1).toNat = i.toNat + 1 := by omega
    rw [hsucc]
    have hdropc : c.tokens.drop i.toNat =
        c.tokens.getD i.toNat dTok :: c.tokens.drop (i.toNat + 1) := by
      rw [List.getD_eq_getElem c.tokens dTok hlt]
      exact List.drop_eq_getElem_cons hlt
    rw [hdropc, List.take_succ_cons, List.filter_cons]
    by_cases hreq : req = -1
    · rw [if_pos hreq]
      by_cases hch : (c.tokens.getD i.toNat dTok).channel = LexerDefaultTokenChannel
      · rw [if_neg (not_not_intro hch)]
        have ha : admitChannel req (c.tokens.getD i.toNat dTok) = false := by
          simp only [admitChannel, if_pos hreq]
          rw [decide_eq_true hch]
          rfl
        rw [ha, if_neg Bool.false_ne_true]
      · rw [if_pos hch]
        have ha : admitChannel req (c.tokens.getD i.toNat dTok) = true := by
          simp only [admitChannel, if_pos hreq]
          rw [decide_eq_false hch]
          rfl
        rw [ha, if_pos rfl]
    · rw [if_neg hreq]
      by_cases hch : (c.tokens.getD i.toNat dTok).channel = req
      · rw [if_pos hch]
        have ha : admitChannel req (c.tokens.getD i.toNat dTok) = true := by
          simp only [admitChannel, if_neg hreq]
          exact decide_eq_true hch
        rw [ha, if_pos rfl]
      · rw [if_neg hch]
        have ha : admitChannel req (c.tokens.getD i.toNat dTok) = false := by
          simp only [admitChannel, if_neg hreq]
          exact decide_eq_false hch
        rw [ha, if_neg Bool.false_ne_true]

theorem filterForChannel_spec (c : CTS) (left right req : Int)
    (hl : 0 ≤ left) (hr : right < (c.tokens.length : Int)) :
    c.filterForChannel left right req =
      .ok (if (((c.tokens.drop left.toNat).take (right + 1 - left).toNat).filter
            (admitChannel req)).isEmpty then none
          else some (((c.tokens.drop left.toNat).take (right + 1 - left).toNat).filter
            (admitChannel req))) := by
  rw [CTS.filterForChannel]
  rcases Nat.eq_zero_or_pos (right + 1 - left).toNat with h0 | hpos
  · rw [h0]
    simp [filterLoop, ebind_ok]
  · rw [filterLoop_spec _ c left req hl (by omega), ebind_ok]
    split
    case isTrue h => rfl
    case isFalse h => rfl

/-- Claim C7: the shared channel filter admits a token when the requested
channel is -1 and the token is off the default channel, and otherwise only
on an exact channel match; on the scenario with channels
`[default, hidden, hidden, default, EOF]`, `getHiddenTokensToRight 0 (-1)`
returns exactly the hidden tokens at indices 1 and 2, and
`getHiddenTokensToLeft 3 (-1)` afterwards returns the same two tokens. -/
theorem hidden_tokens_spec :
    (∀ (c : CTS) (left right req : Int), 0 ≤ left → right < (c.tokens.length : Int) →
      c.filterForChannel left right req =
        .ok (if (((c.tokens.drop left.toNat).take (right + 1 - left).toNat).filter
              (admitChannel req)).isEmpty then none
            else some (((c.tokens.drop left.toNat).take (right + 1 - left).toNat).filter
              (admitChannel req)))) ∧
    hidStream.getHiddenTokensToRight 0 (-1) =
      .ok (some [⟨1, 1, "b", 1⟩, ⟨1, 1, "c", 2⟩], hidStream1) ∧
    hidStream1.getHiddenTokensToLeft 3 (-1) =
      .ok (some [⟨1, 1, "b", 1⟩, ⟨1, 1, "c", 2⟩], hidStream1) :=
  ⟨fun c left right req hl hr => filterForChannel_spec c left right req hl hr,
    by decide, by decide⟩

/-- Witness for the quantified filter part of C7 at concrete arguments. -/
theorem hidden_tokens_spec_witness :
    hidStream1.filterForChannel 1 3 (-1) = .ok (some [⟨1, 1, "b", 1⟩, ⟨1, 1, "c", 2⟩]) := by
  have h := hidden_tokens_spec.1 hidStream1 1 3 (-1) (by decide) (by decide)
  rw [h]
  decide

/-! ## Claim C8 -/

/-- Concatenation of token texts. -/
def specConcat (l : List Tok) : String := l.foldr (fun t s => t.text ++ s) ""

/-- The spec's description of text reconstruction, used as the refinement
comparison for `GetTextFromInterval`: empty on a negative bound, `stop`
clamped to the last buffered index, and the concatenation of the token
texts in `[start, stop]` up to (excluding) the first end-of-stream
token. -/
def specTextFromInterval (ts : List Tok) (start stop : Int) : String :=
  if start < 0 ∨ stop < 0 then ""
  else
    specConcat (((ts.drop start.toNat).take
        (min stop ((ts.length : Int) - 1) + 1 - start).toNat).takeWhile
      (fun t => !decide (t.typ = TokenEOF)))

theorem textLoop_spec (fuel : Nat) (c : CTS) (i : Int) (hi : 0 ≤ i) :
    textLoop fuel c i =
      specConcat (((c.tokens.drop i.toNat).take fuel).takeWhile
        (fun t => !decide (t.typ = TokenEOF))) := by
  induction fuel generalizing i with
  | zero => simp [textLoop, specConcat]
  | succ fuel ih =>
    rw [textLoop]
    by_cases hlt : i.toNat < c.tokens.length
    · have hdropc : c.tokens.drop i.toNat =
          c.tokens.getD i.toNat dTok :: c.tokens.drop (i.toNat + 1) := by
        rw [List.getD_eq_getElem c.tokens dTok hlt]
        exact List.drop_eq_getElem_cons hlt
      rw [hdropc, List.take_succ_cons, List.takeWhile_cons]
      by_cases htyp : (tokAt c i.toNat).typ = TokenEOF
      · rw [if_pos htyp]
        have hb : (!decide ((c.tokens.getD i.toNat dTok).typ = TokenEOF)) = false := by
          show (!decide ((tokAt c i.toNat).typ = TokenEOF)) = false
          rw [decide_eq_true htyp]
          rfl
        rw [hb, if_neg Bool.false_ne_true]
        rfl
      · rw [if_neg htyp]
        have hb : (!decide ((c.tokens.getD i.toNat dTok).typ = TokenEOF)) = true := by
          show (!decide ((tokAt c i.toNat).typ = TokenEOF)) = true
          rw [decide_eq_false htyp]
          rfl
        rw [hb, if_pos rfl, ih (i + 1) (by omega)]
        have hsucc : (i + 1).toNat = i.toNat + 1 := by omega
        rw [hsucc]
        rfl
    · have hdrop : c.tokens.drop i.toNat = [] := List.drop_eq_nil_of_le (by omega)
      have hd : tokAt c i.toNat = dTok := by
        simp only [tokAt]
        exact List.getD_eq_default _ _ (by omega)
      rw [hd, if_neg (by decide), ih (i + 1) (by omega)]
      have hdrop1 : c.tokens.drop (i + 1).toNat = [] := List.drop_eq_nil_of_le (by omega)
      rw [hdrop, hdrop1]
      simp [specConcat, dTok]

theorem text_interval_ok (c : CTS) (start stop : Int) (hI : StreamInv c) :
    ∃ c2, c.GetTextFromInterval (some (start, stop)) =
      .ok (specTextFromInterval c2.tokens start stop, c2) ∧ c2.fetchedEOF = true := by
  obtain ⟨c1, hrunL, hext1, -, -, -⟩ := lazyInit_spec c hI
  have hI1 : StreamInv c1 := hext1.2.2.2.1 hI
  obtain ⟨c2, hrunF, hext2, hfe2, -⟩ := fill_spec c1 hI1
  refine ⟨c2, ?_, hfe2⟩
  rw [CTS.GetTextFromInterval, hrunL, ebind_ok, hrunF, ebind_ok]
  dsimp only
  by_cases hneg : start < 0 ∨ stop < 0
  · rw [if_pos hneg, specTextFromInterval, if_pos hneg]
  · rw [if_neg hneg, specTextFromInterval, if_neg hneg]
    push_neg at hneg
    have hclamp : (if (c2.tokens.length : Int) ≤ stop then (c2.tokens.length : Int) - 1
        else stop) = min stop ((c2.tokens.length : Int) - 1) := by
      split <;> omega
    rw [hclamp, textLoop_spec _ c2 start hneg.1]

/-- Claim C8: `GetTextFromInterval(start, stop)` lazily initializes, fully
fills the buffer, returns the empty string when `start` or `stop` is
negative, and otherwise clamps `stop` to the last buffered index and
concatenates the token texts at indices `start..stop` in order, stopping
before the first end-of-stream token (the spec-side function
`specTextFromInterval`); in particular for the input `["a", "b", "c"]` on
the default channel, `GetTextFromInterval (0, size-1)` returns `"abc"`. -/
theorem text_from_interval_spec :
    (∀ (c : CTS) (start stop : Int), StreamInv c →
      ∃ c2, c.GetTextFromInterval (some (start, stop)) =
        .ok (specTextFromInterval c2.tokens start stop, c2) ∧ c2.fetchedEOF = true) ∧
    (∃ cf, abcStream.Fill = .ok cf ∧
      cf.GetTextFromInterval (some (0, cf.Size - 1)) = .ok ("abc", cf)) :=
  ⟨fun c start stop hI => text_interval_ok c start stop hI,
    ⟨⟨abcSrc, [⟨1, 0, "a", 0⟩, ⟨1, 0, "b", 1⟩, ⟨1, 0, "c", 2⟩, ⟨TokenEOF, 0, "", 3⟩],
        0, true, 0⟩, by decide, by decide⟩⟩

/-- Witness for the quantified part of C8 at a concrete stream. -/
theorem text_from_interval_spec_witness :
    ∃ c2, abcStream.GetTextFromInterval (some (0, 5)) =
      .ok (specTextFromInterval c2.tokens 0 5, c2) ∧ c2.fetchedEOF = true :=
  text_from_interval_spec.1 abcStream 0 5 (by decide)

/-! ## Claim C5 -/

theorem sync_next_lt (c : CTS) (hI : StreamInv c) (i : Int) (hi0 : 0 ≤ i)
    (hi1 : i < (c.tokens.length : Int)) (hne : (tokAt c i.toNat).typ ≠ TokenEOF) :
    i + 1 < ((c.Sync (i + 1)).2.tokens.length : Int) := by
  obtain ⟨-, -, -, hlast, -, -, -⟩ := hI
  by_cases hcase : i + 1 < (c.tokens.length : Int)
  · rw [sync_noop c _ hcase]
    exact hcase
  · have hieq : i + 1 = (c.tokens.length : Int) := by omega
    have hnf : c.fetchedEOF = false := by
      by_contra hcon
      have hfe : c.fetchedEOF = true := by
        cases hb : c.fetchedEOF
        · exact absurd hb hcon
        · rfl
      have hne2 : c.tokens ≠ [] := by
        intro hnil
        rw [hnil] at hi1
        simp at hi1
        omega
      have := hlast hfe hne2
      have hieq2 : i.toNat = c.tokens.length - 1 := by omega
      rw [← hieq2] at this
      exact hne this
    have hpos : 1 ≤ (c.fetch (i + 1 - (c.tokens.length : Int) + 1).toNat).1 := by
      unfold CTS.fetch
      rw [if_neg (by rw [hnf]; exact Bool.false_ne_true)]
      exact fetchLoop_pos _ c (by omega)
    have hlenf := fetch_len c (i + 1 - (c.tokens.length : Int) + 1).toNat
    simp only [CTS.Sync]
    rw [if_pos (by omega)]
    simp only
    omega

theorem sync_idem (c : CTS) (i : Int) : ((c.Sync i).2.Sync i).2 = (c.Sync i).2 := by
  by_cases h : i < (((c.Sync i).2).tokens.length : Int)
  · rw [sync_noop _ _ h]
  · have hfe : (c.Sync i).2.fetchedEOF = true := by
      have hb : (c.Sync i).1 = false := by
        cases hb2 : (c.Sync i).1
        · rfl
        · rw [sync_true_iff] at hb2
          exact absurd hb2 h
      exact sync_false_feof c i hb
    exact sync_feof_id _ _ hfe

theorem ntoc_sync_absorb (c : CTS) (i ch : Int) :
    (c.Sync i).2.NextTokenOnChannel i ch = c.NextTokenOnChannel i ch := by
  rw [CTS.NextTokenOnChannel, CTS.NextTokenOnChannel, sync_idem]

/-- Claim C5: on a reachable, initialized stream, `LT 1` is the token at
the cursor without any state change; `Consume` signals the
consume-past-end error exactly when that token is the end-of-stream token
(so a stream positioned at the end marker always fails); and on success
the cursor is reassigned to `adjustSeekIndex(cursor + 1)`. -/
theorem consume_spec (c : CTS) (hI : StreamInv c) (hix : 0 ≤ c.index) :
    c.LT 1 = .ok (some (tokAt c c.index.toNat), c) ∧
    ((tokAt c c.index.toNat).typ = TokenEOF → c.Consume = .error errConsume) ∧
    ((tokAt c c.index.toNat).typ ≠ TokenEOF →
      ∃ j c₂, c.adjustSeekIndex (c.index + 1) = .ok (j, c₂) ∧
        c.Consume = .ok { c₂ with index := j }) := by
  have hIc := hI
  obtain ⟨-, -, heof, hlast, -, -, hixok⟩ := hIc
  have hval : c.index < (c.tokens.length : Int) := by
    rcases hixok with h | ⟨-, h2, -⟩
    · omega
    · exact h2
  have hLT1 : c.LT 1 = .ok (some (tokAt c c.index.toNat), c) := by
    rw [CTS.LT, CTS.lazyInit, if_neg (by omega), ebind_ok, if_neg (by omega),
      if_neg (by omega)]
    show (ltLoop 0 c c.index >>= _) = _
    rw [ltLoop, ebind_ok, getTok_ok hix hval, ebind_ok]
    rfl
  have hLA : c.LA 1 = .ok ((tokAt c c.index.toNat).typ, c) := by
    rw [CTS.LA, hLT1, ebind_ok]
  refine ⟨hLT1, ?_, ?_⟩
  · intro htyp
    obtain ⟨hfe, hlen⟩ := heof c.index.toNat (by omega) htyp
    have hskip : (if 0 ≤ c.index then
        if c.fetchedEOF = true then decide (c.index < (c.tokens.length : Int) - 1)
        else decide (c.index < (c.tokens.length : Int))
      else false) = false := by
      rw [if_pos hix, if_pos hfe]
      simp only [decide_eq_false_iff_not]
      omega
    simp only [CTS.Consume]
    rw [if_neg (by rw [hskip]; exact Bool.false_ne_true), hLA, ebind_ok,
      if_pos htyp, ebind_err]
  · intro hne
    have hskip : (if 0 ≤ c.index then
        if c.fetchedEOF = true then decide (c.index < (c.tokens.length : Int) - 1)
        else decide (c.index < (c.tokens.length : Int))
      else false) = true := by
      rw [if_pos hix]
      cases hb : c.fetchedEOF
      · exact decide_eq_true hval
      · refine decide_eq_true ?_
        by_contra hcon
        have hieq : c.index.toNat = c.tokens.length - 1 := by omega
        have hne2 : c.tokens ≠ [] := by
          intro hnil
          rw [hnil] at hval
          simp at hval
          omega
        have := hlast hb hne2
        rw [← hieq] at this
        exact hne this
    have hsync1 : (c.Sync (c.index + 1)).1 = true :=
      (sync_true_iff c (c.index + 1)).mpr (sync_next_lt c hI c.index hix hval hne)
    obtain ⟨j, c₂, hrun, -, -, -⟩ :=
      ntoc_spec c (c.index + 1) c.channel hI (by omega)
    refine ⟨j, c₂, ?_, ?_⟩
    · rw [CTS.adjustSeekIndex, hrun]
    · simp only [CTS.Consume]
      rw [if_pos hskip, ebind_ok, if_pos hsync1, CTS.adjustSeekIndex,
        sync_index c (c.index + 1), (sync_ext c (c.index + 1)).2.1,
        ntoc_sync_absorb c (c.index + 1) c.channel, hrun, ebind_ok]

/-- Witness for C5 at a concrete initialized stream. -/
theorem consume_spec_witness :
    aStreamDone.LT 1 = .ok (some (tokAt aStreamDone aStreamDone.index.toNat), aStreamDone) ∧
    ∃ j c₂, aStreamDone.adjustSeekIndex (aStreamDone.index + 1) = .ok (j, c₂) ∧
      aStreamDone.Consume = .ok { c₂ with index := j } :=
  ⟨(consume_spec aStreamDone (by decide) (by decide)).1,
   (consume_spec aStreamDone (by decide) (by decide)).2.2 (by decide)⟩

/-! ## Claim C1 -/

theorem ntoc_len_ge (c : CTS) (i ch j : Int) (c' : CTS)
    (hrun : c.NextTokenOnChannel i ch = .ok (j, c')) :
    (c.Sync i).2.tokens.length ≤ c'.tokens.length := by
  simp only [CTS.NextTokenOnChannel] at hrun
  split at hrun
  · injection hrun with h
    injection h with _ hc
    rw [← hc]
  · obtain ⟨hx, -, -⟩ := ntocLoop_pres _ _ _ _ _ hrun
    exact hx.len_le

/-- Under the end-of-stream-on-channel assumption, a forward scan whose
start position is within the synced buffer always finds an on-channel
index. -/
theorem ntoc_pos (c : CTS) (i ch : Int) (hI : StreamInv c) (hE : EOC c) (hi0 : 0 ≤ i)
    (hlt : i < ((c.Sync i).2.tokens.length : Int)) :
    ∃ j c', c.NextTokenOnChannel i ch = .ok (j, c') ∧ StreamExt c c' ∧
      c'.index = c.index ∧ 0 ≤ j ∧ i ≤ j ∧ j < (c'.tokens.length : Int) ∧
      (tokAt c' j.toNat).channel = c.channel := by
  obtain ⟨j, c', hrun, hext, hidx, hres⟩ := ntoc_spec c i ch hI hi0
  rcases hres with ⟨h1, h2, h3, h4, -⟩ | ⟨h1, h2, h3⟩
  · exact ⟨j, c', hrun, hext, hidx, h1, h2, h3, h4⟩
  · exfalso
    have hlen' : i < (c'.tokens.length : Int) := by
      have := ntoc_len_ge c i ch j c' hrun
      omega
    have hne : c'.tokens ≠ [] := by
      intro hnil
      rw [hnil] at hlen'
      simp at hlen'
      omega
    have hI' : StreamInv c' := hext.2.2.2.1 hI
    obtain ⟨-, -, -, hlast', -, -, -⟩ := hI'
    have hE' : EOC c' := hext.2.2.2.2.1 hE
    have hoff := h3 (c'.tokens.length - 1) (by omega) (by omega)
    have heofch := hE'.1 (c'.tokens.length - 1) (by omega) (hlast' h2 hne)
    rw [hext.2.1] at heofch
    exact hoff heofch

/-- Under the end-of-stream-on-channel assumption and excluding the
rebound-after-end state, lazy initialization always lands the cursor on a
valid on-channel position. -/
theorem lazyInit_pos (c : CTS) (hI : StreamInv c) (hE : EOC c) (hN : NZ c) :
    ∃ c1, c.lazyInit = .ok c1 ∧ StreamExt c c1 ∧
      0 ≤ c1.index ∧ c1.index < (c1.tokens.length : Int) ∧
      (tokAt c1 c1.index.toNat).channel = c1.channel := by
  obtain ⟨c1, hrun, hext, -, hneg, hpos⟩ := lazyInit_spec c hI
  by_cases hidx : c1.index = -1
  · exfalso
    obtain ⟨hfe1, hoff⟩ := hneg hidx
    have hne : c1.tokens ≠ [] := (hext.2.2.2.2.2 hN) hfe1
    have hI1 : StreamInv c1 := hext.2.2.2.1 hI
    obtain ⟨-, -, -, hlast1, -, -, -⟩ := hI1
    have hE1 : EOC c1 := hext.2.2.2.2.1 hE
    have hlen : 0 < c1.tokens.length := List.length_pos.mpr hne
    exact hoff (c1.tokens.length - 1) (by omega)
      (hE1.1 (c1.tokens.length - 1) (by omega) (hlast1 hfe1 hne))
  · obtain ⟨h1, h2, h3⟩ := hpos hidx
    exact ⟨c1, hrun, hext, h1, h2, h3⟩

/-- The cursor of the `LT` walk: a valid on-channel position. -/
def LtState (c : CTS) (i : Int) : Prop :=
  0 ≤ i ∧ i < (c.tokens.length : Int) ∧ (tokAt c i.toNat).channel = c.channel

theorem ltLoop_stuck (fuel : Nat) (c : CTS) (i : Int) (hfe : c.fetchedEOF = true)
    (hieq : i + 1 = (c.tokens.length : Int)) :
    ltLoop fuel c i = .ok (i, c) := by
  induction fuel with
  | zero => rfl
  | succ fuel ih =>
    rw [ltLoop]
    simp only [CTS.Sync,
      if_pos (show (0 : Int) < i + 1 - (c.tokens.length : Int) + 1 by omega),
      fetch_feof_id c _ hfe]
    rw [if_neg (by
      rw [decide_eq_false
        (show ¬((i + 1 - (c.tokens.length : Int) + 1).toNat ≤ (0, c).1 : Prop) by
          simp only
          omega)]
      exact Bool.false_ne_true)]
    exact ih

theorem ltLoop_walk (m : Nat) (c : CTS) (i : Int) (hI : StreamInv c) (hE : EOC c)
    (hL : LtState c i) :
    ∃ i' c', ltLoop m c i = .ok (i', c') ∧ StreamInv c' ∧ EOC c' ∧ LtState c' i' ∧
      StreamExt c c' ∧
      ((i + (m : Int)) ≤ i' ∨ (c'.fetchedEOF = true ∧
        i' + 1 = (c'.tokens.length : Int))) := by
  induction m generalizing c i with
  | zero =>
    exact ⟨i, c, rfl, hI, hE, hL, StreamExt.refl c, Or.inl (by omega)⟩
  | succ m ih =>
    obtain ⟨hi0, hilt, hich⟩ := hL
    rw [ltLoop]
    cases hb : (c.Sync (i + 1)).1
    · -- the sync failed: the stream is exhausted and `i` is the last index
      have hfeof : c.fetchedEOF = true := by
        cases hbf : c.fetchedEOF
        · exfalso
          by_cases hn : 0 < i + 1 - (c.tokens.length : Int) + 1
          · have hcnt : 1 ≤ (c.fetch (i + 1 - (c.tokens.length : Int) + 1).toNat).1 := by
              unfold CTS.fetch
              rw [if_neg (by rw [hbf]; exact Bool.false_ne_true)]
              exact fetchLoop_pos _ c (by omega)
            have hlenf := fetch_len c (i + 1 - (c.tokens.length : Int) + 1).toNat
            have hnottrue : ¬(i + 1 < (((c.Sync (i + 1)).2).tokens.length : Int)) := by
              intro hcon
              rw [← sync_true_iff] at hcon
              rw [hb] at hcon
              exact Bool.false_ne_true hcon
            have hlen2 : ((c.Sync (i + 1)).2).tokens.length =
                c.tokens.length + (c.fetch (i + 1 - (c.tokens.length : Int) + 1).toNat).1 := by
              simp only [CTS.Sync, if_pos hn]
              exact hlenf
            omega
          · have : c.Sync (i + 1) = (true, c) := by
              simp only [CTS.Sync]
              rw [if_neg hn]
            rw [this] at hb
            simp at hb
        · rfl
      have hc2 : (c.Sync (i + 1)).2 = c := sync_feof_id c (i + 1) hfeof
      have hieq : i + 1 = (c.tokens.length : Int) := by
        have hnottrue : ¬(i + 1 < (((c.Sync (i + 1)).2).tokens.length : Int)) := by
          intro hcon
          rw [← sync_true_iff] at hcon
          rw [hb] at hcon
          exact Bool.false_ne_true hcon
        rw [hc2] at hnottrue
        omega
      rw [if_neg Bool.false_ne_true, hc2, ltLoop_stuck m c i hfeof hieq]
      exact ⟨i, c, rfl, hI, hE, ⟨hi0, hilt, hich⟩, StreamExt.refl c,
        Or.inr ⟨hfeof, hieq⟩⟩
    · -- the sync succeeded: step to the next on-channel index
      rw [if_pos rfl]
      have hlt2 : i + 1 < (((c.Sync (i + 1)).2).tokens.length : Int) := by
        rw [← sync_true_iff]
        exact hb
      have hI2 : StreamInv (c.Sync (i + 1)).2 := (sync_ext c (i + 1)).2.2.2.1 hI
      have hE2 : EOC (c.Sync (i + 1)).2 := (sync_ext c (i + 1)).2.2.2.2.1 hE
      have hlt2' : i + 1 <
          (((((c.Sync (i + 1)).2).Sync (i + 1)).2).tokens.length : Int) := by
        rw [sync_idem]
        exact hlt2
      obtain ⟨j, c3, hrun3, hext3, -, hj0, hjge, hjlt, hjch⟩ :=
        ntoc_pos (c.Sync (i + 1)).2 (i + 1) ((c.Sync (i + 1)).2).channel hI2 hE2
          (by omega) hlt2'
      rw [hrun3, ebind_ok]
      have hL3 : LtState c3 j := by
        refine ⟨hj0, hjlt, ?_⟩
        rw [hjch, ← hext3.2.1]
      obtain ⟨i', c', hrun', hI', hE', hL', hext', hprog⟩ :=
        ih c3 j (hext3.2.2.2.1 hI2) (hext3.2.2.2.2.1 hE2) hL3
      refine ⟨i', c', hrun', hI', hE', hL',
        ((sync_ext c (i + 1)).trans hext3).trans hext', ?_⟩
      rcases hprog with h | h
      · exact Or.inl (by omega)
      · exact Or.inr h

/-- Claim C1 counterexample: the claim quantifies over every stream, but on
a stream whose configured channel (1) differs from the end-of-stream
token's channel (0), lazy initialization leaves the cursor at -1 and
`LT 1` reads `tokens[-1]` — an out-of-range access (Go panic) instead of
the end-of-stream token. -/
theorem lt_counterexample : offChanStream.LT 1 = .error errRange := by decide

/-- Claim C1 (amended): on a reachable stream state in which every
end-of-stream token lies on the stream's configured channel (as with the
default channel in practice) and which is not the rebound-after-end state,
`LT k` for every `k > 0` performs no out-of-range buffer access: it
returns a buffered token, and as soon as `k` exceeds the number of tokens
the source can supply (`length + 2`), the returned token is the
end-of-stream token. -/
theorem lt_safe (c : CTS) (k : Int) (hI : StreamInv c) (hE : EOC c) (hN : NZ c)
    (hk : 0 < k) :
    ∃ t c', c.LT k = .ok (some t, c') ∧
      (∃ m : Nat, m < c'.tokens.length ∧ tokAt c' m = t) ∧
      ((c.tokenSource.toks.length : Int) + 2 ≤ k → t.typ = TokenEOF) := by
  obtain ⟨c1, hrunL, hext1, h10, h1lt, h1ch⟩ := lazyInit_pos c hI hE hN
  have hI1 : StreamInv c1 := hext1.2.2.2.1 hI
  have hE1 : EOC c1 := hext1.2.2.2.2.1 hE
  obtain ⟨i', c', hrun', hI', hE', hL', hext', hprog⟩ :=
    ltLoop_walk (k.toNat - 1) c1 c1.index hI1 hE1 ⟨h10, h1lt, h1ch⟩
  refine ⟨c'.tokens.getD i'.toNat dTok, c', ?_, ?_, ?_⟩
  · rw [CTS.LT, hrunL, ebind_ok, if_neg (show ¬(k = 0) by omega),
      if_neg (show ¬(k < 0) by omega), hrun', ebind_ok]
    show (getTok c'.tokens i' >>= _) = _
    rw [getTok_ok hL'.1 hL'.2.1, ebind_ok]
  · exact ⟨i'.toNat, by have h1 := hL'.1; have h2 := hL'.2.1; omega, rfl⟩
  · intro hbig
    have hsrc' : c'.tokenSource = c.tokenSource := hext'.1.trans hext1.1
    rcases hprog with hgt | ⟨hfe', hieq'⟩
    · exfalso
      obtain ⟨-, -, -, -, hle', hle2', -⟩ := hI'
      have hlen' : c'.tokens.length ≤ c.tokenSource.toks.length + 1 := by
        cases hbf : c'.fetchedEOF
        · have := hle' hbf
          rw [hsrc'] at this
          omega
        · have := hle2' hbf
          rw [hsrc'] at this
          omega
      have := hL'.2.1
      omega
    · have hne : c'.tokens ≠ [] := by
        intro hnil
        rw [hnil] at hieq'
        simp at hieq'
        have := hL'.1
        omega
      obtain ⟨-, -, -, hlast', -, -, -⟩ := hI'
      show (tokAt c' i'.toNat).typ = TokenEOF
      rw [show i'.toNat = c'.tokens.length - 1 by
        have := hL'.1
        omega]
      exact hlast' hfe' hne

/-- Witness for the amended C1 at a concrete stream and lookahead. -/
theorem lt_safe_witness :
    ∃ t c', hidStream.LT 7 = .ok (some t, c') ∧
      (∃ m : Nat, m < c'.tokens.length ∧ tokAt c' m = t) ∧
      ((hidStream.tokenSource.toks.length : Int) + 2 ≤ 7 → t.typ = TokenEOF) :=
  lt_safe hidStream 7 (by decide) (by decide) (by decide) (by decide)
